import Mathlib

/-! Report generation of the games service.

A shallow embedding of `backend/reportGeneration.go`, of the report part of
`backend/mongo.go` with its aggregation pipeline, of the types of
`backend/model.go` and of the game endpoint of
`service/gameservice/handler.go`, followed by the properties that are proved
(or refuted) against it.

Conventions of the embedding.

* Go `int` is the 64-bit two's-complement integer.  The running sum of likes
  is therefore wrapped by `wrapInt64` after every addition.  Comment counters
  are only ever incremented by one per comment read, so they are kept as exact
  integers.
* Go `float64` is `Float64`: a rational number, an infinity or NaN.  The
  conversion `float64(x)` and the quotient `/` round to nearest, ties to even,
  with a 53 bit significand (`Float64.ofRat`).  The sign of zero is not
  tracked; no quotient of the program divides by a negative zero.
* The conversion `int(f)` of a NaN, of an infinity or of a value outside the
  range of `int` is left implementation-dependent by the Go specification.
  It is the parameter `Arch.cvtUndef`.
* A Go `map[string]int` is an association list with distinct keys.  The order
  in which `range` visits a map is not fixed by the language: the function
  `reportAccumulator.report` receives the visiting order as an argument, and
  `RangeOrder` says that an order is one of those the map admits.
* A Go `error` is `Option String`, `none` being `nil`.
-/

namespace Backend

/-! ## Numbers -/

/-- Wrap-around of an exact integer to the Go `int` range `[-2^63, 2^63)`. -/
def wrapInt64 (x : Int) : Int :=
  (x + 2 ^ 63) % 2 ^ 64 - 2 ^ 63

/-- Values of the Go type `float64` (the sign of zero is not tracked). -/
inductive Float64 where
  | fin (q : ℚ)
  | posInf
  | negInf
  | nan
deriving DecidableEq

/-- Nearest integer to a rational, a tie going to the even neighbour. -/
def roundHalfEven (q : ℚ) : ℤ :=
  let f := ⌊q⌋
  if q - f < 1 / 2 then f
  else if 1 / 2 < q - f then f + 1
  else if f % 2 = 0 then f
  else f + 1

/-- Spacing of the `float64` grid around a non-zero rational: `2 ^ (e - 52)`
where `e` is the binary exponent of `q`, not below the subnormal exponent. -/
def ulp (q : ℚ) : ℚ :=
  (2 : ℚ) ^ (max (Int.log 2 |q|) (-1022) - 52)

/-- Magnitude of the `float64` nearest to a non-zero rational: the significand
`|q| / ulp q` is rounded to an integer, ties to even. -/
def roundMag (q : ℚ) : ℚ :=
  (roundHalfEven (|q| / ulp q) : ℚ) * ulp q

/-- IEEE 754 binary64 rounding of an exact rational (round to nearest, ties to
even, overflow to an infinity). -/
def Float64.ofRat (q : ℚ) : Float64 :=
  if q = 0 then .fin 0
  else if (2 : ℚ) ^ (1024 : ℕ) ≤ roundMag q then (if 0 < q then .posInf else .negInf)
  else .fin (if 0 < q then roundMag q else -roundMag q)

/-- Go conversion `float64(x)` of an `int`. -/
def Float64.ofInt (x : Int) : Float64 :=
  Float64.ofRat (x : ℚ)

/-- Go quotient `x / y` of two `float64`. -/
def Float64.div : Float64 → Float64 → Float64
  | .nan, _ => .nan
  | _, .nan => .nan
  | .fin a, .fin b =>
    if b = 0 then (if a = 0 then .nan else if 0 < a then .posInf else .negInf)
    else Float64.ofRat (a / b)
  | .fin _, .posInf => .fin 0
  | .fin _, .negInf => .fin 0
  | .posInf, .fin b => if 0 ≤ b then .posInf else .negInf
  | .negInf, .fin b => if 0 ≤ b then .negInf else .posInf
  | .posInf, .posInf => .nan
  | .posInf, .negInf => .nan
  | .negInf, .posInf => .nan
  | .negInf, .negInf => .nan

/-- Go `math.Ceil`: least integer value not below the argument; an infinity
and NaN are returned unchanged. -/
def Float64.ceil : Float64 → Float64
  | .fin q => .fin (⌈q⌉ : ℤ)
  | .posInf => .posInf
  | .negInf => .negInf
  | .nan => .nan

/-- Compilation target: what `int(f)` gives where the Go specification leaves
the result to the implementation (NaN, infinities, values out of range). -/
structure Arch where
  cvtUndef : Float64 → Int

/-- The amd64 target: the conversion instruction answers `-2^63` in all the
cases it cannot represent. -/
def amd64 : Arch :=
  ⟨fun _ => -9223372036854775808⟩

/-- Go conversion `int(f)` of a `float64`: the fraction is discarded. -/
def Float64.toInt (arch : Arch) : Float64 → Int
  | .fin q =>
    let t : Int := if 0 ≤ q then ⌊q⌋ else ⌈q⌉
    if -2 ^ 63 ≤ t ∧ t < 2 ^ 63 then t else arch.cvtUndef (.fin q)
  | .posInf => arch.cvtUndef .posInf
  | .negInf => arch.cvtUndef .negInf
  | .nan => arch.cvtUndef .nan

/-! ## Data model (`model.go`) -/

/-- Comment of `model.go`; `DateCreated` is kept as seconds since the epoch. -/
structure Comment where
  User : String
  Message : String
  DateCreated : Int
  Like : Int
deriving DecidableEq

/-- Game of `model.go`. -/
structure Game where
  Title : String
  Description : String
  By : String
  Platform : List String
  AgeRating : String
  Likes : Int
  Comments : List Comment
deriving DecidableEq

/-- GameAverageLikes of `model.go`. -/
structure GameAverageLikes where
  Title : String
  AverageLikes : Int
deriving DecidableEq

/-- Report of `model.go`. -/
structure Report where
  UserWithMostComments : String
  HighestRatedGame : String
  AverageLikesPerGame : List GameAverageLikes
deriving DecidableEq

/-! ## Go maps -/

/-- Go `map[string]int`, as the list of its entries (keys distinct). -/
abbrev UserMap := List (String × Int)

/-- Go map read `m[k]`: the zero value when the key is absent. -/
def UserMap.get (m : UserMap) (k : String) : Int :=
  (m.lookup k).getD 0

/-- Go map write `m[k] = v`. -/
def UserMap.set (m : UserMap) (k : String) (v : Int) : UserMap :=
  (k, v) :: m.filter (fun e => e.1 != k)

/-- The orders in which a `range` loop may visit the entries of a map: every
arrangement of its entries. -/
def RangeOrder (m : UserMap) (order : List (String × Int)) : Prop :=
  order.Perm m

instance (m : UserMap) (order : List (String × Int)) : Decidable (RangeOrder m order) := by
  unfold RangeOrder
  infer_instance

/-! ## The streaming accumulator (`reportGeneration.go`) -/

/-- The anonymous struct of the field `mostLiked`. -/
structure MostLiked where
  title : String
  likes : Int
deriving DecidableEq

/-- Accumulator of `reportGeneration.go`. -/
structure reportAccumulator where
  users : UserMap
  mostLiked : MostLiked
  averageLikes : List GameAverageLikes
deriving DecidableEq

/-- Fresh accumulator: empty map, zero-valued `mostLiked`, empty slice. -/
def newReportAcc : reportAccumulator :=
  { users := [], mostLiked := ⟨"", 0⟩, averageLikes := [] }

/-- One iteration of the `range acc.users` loop of `report`.  The state is
`(maxComments, maxName)`; the loop body assigns `maxName` only. -/
def reportStep (st : Int × String) (entry : String × Int) : Int × String :=
  if entry.2 > st.1 then (st.1, entry.1) else st

/-- Method `report`, the map being visited in the order `order`. -/
def reportAccumulator.report (acc : reportAccumulator)
    (order : List (String × Int)) : Report :=
  let st := order.foldl reportStep (0, "")
  { UserWithMostComments := st.2
    HighestRatedGame := acc.mostLiked.title
    AverageLikesPerGame := acc.averageLikes }

/-- The loop of `processLikes`: the running `likeSum`, a Go `int`. -/
def likeSum (comments : List Comment) : Int :=
  comments.foldl (fun sum comment => wrapInt64 (sum + comment.Like)) 0

/-- Function `processLikes`: the pair `(avg, total)`. -/
def processLikes (arch : Arch) (game : Game) : Int × Int :=
  let total := likeSum game.Comments
  let avgLikes :=
    Float64.toInt arch
      (Float64.ceil
        (Float64.div (Float64.ofInt total) (Float64.ofInt (game.Comments.length : Int))))
  (avgLikes, total)

/-- The loop of `processGame` over the comments of a game: one more comment
for the user of each. -/
def countComments (users : UserMap) (comments : List Comment) : UserMap :=
  comments.foldl (fun m comment => m.set comment.User (m.get comment.User + 1)) users

/-- Method `processGame`. -/
def reportAccumulator.processGame (arch : Arch) (acc : reportAccumulator)
    (game : Game) : reportAccumulator :=
  let r := processLikes arch game
  let avg := r.1
  let total := r.2
  { users := countComments acc.users game.Comments
    mostLiked := if total > acc.mostLiked.likes then ⟨game.Title, total⟩ else acc.mostLiked
    averageLikes := acc.averageLikes ++ [⟨game.Title, avg⟩] }

/-- The accumulator after `processGame` has been called on every game of the
corpus in order, starting from `newReportAcc`. -/
def accumulate (arch : Arch) (games : List Game) : reportAccumulator :=
  games.foldl (reportAccumulator.processGame arch) newReportAcc

/-- Total-likes of a game as the engine computes it: the second component of
`processLikes`. -/
def totalLikes (game : Game) : Int :=
  likeSum game.Comments

/-! ## The pushdown strategy (`mongo.go`) -/

/-- Go `error`; `none` is `nil`. -/
abbrev GoError := Option String

/-- Row type `userResult`. -/
structure userResult where
  Name : String
  Comments : Int
deriving DecidableEq

/-- Row type `gameLikeResult`. -/
structure gameLikeResult where
  Title : String
  Likes : Int
  AvgLikes : Float64
deriving DecidableEq

/-- A driver cursor: the rows that `Next` delivers, each with the outcome of
its `Decode`. -/
abbrev Cursor (α : Type) := List (Except String α)

/-- Outcome of `Collection.Aggregate`: an error or a cursor. -/
abbrev Aggregation (α : Type) := Except String (Cursor α)

/-- The cursor of the user pipeline: for each row that `Next` delivers, the
value that `cur.Decode(&bestUser)` leaves in `bestUser`, which may be filled
in part only when decoding fails, and the error that `Decode` returns. -/
abbrev UserCursor := List (userResult × GoError)

/-- The data store as the report sees it: its answers to the two pipelines. -/
structure MongoDataSource where
  commentsPerUser : Except String UserCursor
  gameLike : Aggregation gameLikeResult

/-- Method `mostCommentedUser`.  The error of `Decode` is bound to a new
variable inside the `if` and is only logged: the method returns the name that
`Decode` left in `bestUser`, with the `err` of `Aggregate`. -/
def MongoDataSource.mostCommentedUser (mongo : MongoDataSource) : String × GoError :=
  match mongo.commentsPerUser with
  | .error e => ("", some e)
  | .ok [] => ("", none)
  | .ok ((bestUser, _) :: _) => (bestUser.Name, none)

/-- The `for cur.Next(ctx)` loop of `gamesReport`.  The variable `first` is
read by the loop body and never assigned. -/
def gamesReportLoop (arch : Arch) (first : Bool) (report : Report) :
    Cursor gameLikeResult → Report × GoError
  | [] => (report, none)
  | .error e :: _ => (report, some e)
  | .ok res :: rest =>
    let report₁ : Report :=
      if first then { report with HighestRatedGame := res.Title } else report
    let report₂ : Report :=
      { report₁ with
        AverageLikesPerGame := report₁.AverageLikesPerGame ++
          [⟨res.Title, Float64.toInt arch (Float64.ceil res.AvgLikes)⟩] }
    gamesReportLoop arch first report₂ rest

/-- Method `gamesReport`: the report it leaves behind the pointer, and the
error it returns. -/
def MongoDataSource.gamesReport (arch : Arch) (mongo : MongoDataSource)
    (report : Report) : Report × GoError :=
  match mongo.gameLike with
  | .error e => (report, some e)
  | .ok cur => gamesReportLoop arch true report cur

/-- Method `Report` of `MongoDataSource`: both errors are logged, and the
method returns `report, nil`. -/
def MongoDataSource.Report (arch : Arch) (mongo : MongoDataSource) :
    Backend.Report × GoError :=
  let r₁ := mongo.mostCommentedUser
  let report : Backend.Report :=
    { UserWithMostComments := r₁.1, HighestRatedGame := "", AverageLikesPerGame := [] }
  let r₂ := mongo.gamesReport arch report
  (r₂.1, none)

/-! ## Fixtures -/

/-- First of the `mockGames` of `handler_test.go`. -/
def dummyGame : Game :=
  { Title := "Dummy"
    Description := "A game that exists solely for testing"
    By := "me"
    Platform := ["PC - obviously"]
    AgeRating := "42+"
    Likes := 42
    Comments :=
      [ { User := "Jacqueline Dodson"
          Message := "Lorem ipsum dolor sit amet, consectetur adipiscing elit."
          DateCreated := 1079654400
          Like := 5 },
        { User := "Courtney Knapp"
          Message := "Nam urna ipsum, blandit vel ex ac, imperdiet venenatis justo."
          DateCreated := 671414400
          Like := 1 } ] }

/-- Second of the `mockGames` of `handler_test.go`. -/
def solitaryVoyage : Game :=
  { Title := "Solitary Voyage"
    Description := "Decsription goes here"
    By := "Jimmie Bassett"
    Platform := ["PC", "XBOX"]
    AgeRating := "6+"
    Likes := 99
    Comments :=
      [ { User := "Jacqueline Dodson"
          Message := "Mauris blandit orci at magna venenatis euismod."
          DateCreated := 997920000
          Like := 9 } ] }

/-- The slice `mockGames` of `handler_test.go`. -/
def mockGames : List Game :=
  [dummyGame, solitaryVoyage]

/-- The rows the store yields for the two mock games: one row per title,
greatest total first. -/
def mockRows : Cursor gameLikeResult :=
  [.ok ⟨"Solitary Voyage", 9, .fin 9⟩, .ok ⟨"Dummy", 6, .fin 3⟩]

/-- A game nobody has commented on. -/
def silentGame : Game :=
  { Title := "Silent"
    Description := ""
    By := ""
    Platform := []
    AgeRating := ""
    Likes := 0
    Comments := [] }

/-- Candidate kept by the accumulator: either nothing was selected and no game
so far has a positive total, or the candidate is the first game that reaches
the greatest total, which is positive. -/
def Selected (gs : List Game) (m : MostLiked) : Prop :=
  (m = ⟨"", 0⟩ ∧ ∀ g ∈ gs, totalLikes g ≤ 0) ∨
  ∃ pre g post, gs = pre ++ g :: post ∧ m = ⟨g.Title, totalLikes g⟩ ∧
    0 < totalLikes g ∧ (∀ x ∈ pre, totalLikes x < totalLikes g) ∧
    (∀ x ∈ post, totalLikes x ≤ totalLikes g)

/-! ## The aggregation pipeline (`gameLikePipeline` of `mongo.go`)

The stages are given the meaning MongoDB documents for them.  The collection
holds one document per game, with the fields `title` and `comments` of
`Game`. -/

/-- Numbers of an aggregation: 64-bit integers and doubles. -/
inductive MongoNum where
  | long (n : Int)
  | double (f : Float64)
deriving DecidableEq

/-- What the report depends on and neither the pipeline nor the Go code
fixes: the double that `$sum` answers once a sum of integers leaves the
64-bit range, and the outcome of decoding a double into a Go `int`. -/
structure Server where
  sumDouble : List Int → Float64
  decodeDouble : Float64 → Except String Int

/-- Accumulator `$sum` over integers: exact within the 64-bit range. -/
def Server.sum (srv : Server) (xs : List Int) : MongoNum :=
  if -2 ^ 63 ≤ xs.sum ∧ xs.sum < 2 ^ 63 then .long xs.sum else .double (srv.sumDouble xs)

/-- Conversion of the operands of `$divide` to doubles. -/
def MongoNum.toDouble : MongoNum → Float64
  | .long n => Float64.ofInt n
  | .double f => f

/-- Position of a number in the sort order of MongoDB: NaN first, then the
numbers by value, whatever their type. -/
def MongoNum.sortKey : MongoNum → ℤ × ℚ
  | .long n => (1, (n : ℚ))
  | .double (.fin q) => (1, q)
  | .double .nan => (-1, 0)
  | .double .negInf => (0, 0)
  | .double .posInf => (2, 0)

/-- Order of two numbers in a sort: `a` is not after `b` in ascending order. -/
def MongoNum.le (a b : MongoNum) : Prop :=
  a.sortKey.1 < b.sortKey.1 ∨ (a.sortKey.1 = b.sortKey.1 ∧ a.sortKey.2 ≤ b.sortKey.2)

instance (a b : MongoNum) : Decidable (MongoNum.le a b) := by
  unfold MongoNum.le
  infer_instance

/-- Document leaving the stage `projectComments`: the title of the game and
one of its comments, or no comment for a game that has none. -/
structure CommentDoc where
  comment : Option Comment
  title : String
deriving DecidableEq

/-- Stage `getComments`: `$unwind` of `comments` with
`preserveNullAndEmptyArrays`.  One document per comment of the game, and one
document without comment for a game whose array is empty. -/
def getComments (games : List Game) : List (Game × Option Comment) :=
  games.flatMap fun g =>
    if g.Comments = [] then [(g, none)] else g.Comments.map fun c => (g, some c)

/-- Stage `projectComments`: keeps `comment` and `title`. -/
def projectComments (docs : List (Game × Option Comment)) : List CommentDoc :=
  docs.map fun d => { comment := d.2, title := d.1.Title }

/-- Document leaving the stage `groupByTitle`. -/
structure TitleGroup where
  id : String
  number_of_comments : Int
  total_likes : MongoNum
deriving DecidableEq

/-- Stage `groupByTitle`: one group per title, counting its documents and
summing `comment.like`, a document without comment adding nothing. -/
def groupByTitle (srv : Server) (docs : List CommentDoc) : List TitleGroup :=
  (docs.map fun d => d.title).dedup.map fun t =>
    let members := docs.filter fun d => d.title == t
    { id := t
      number_of_comments := (members.length : Int)
      total_likes := srv.sum (members.filterMap fun d => d.comment.map fun c => c.Like) }

/-- Document leaving the stage `averageProjection`, a row of the cursor. -/
structure LikeRow where
  id : String
  avg_likes : Float64
  likes : MongoNum
deriving DecidableEq

/-- Stage `averageProjection`: `avg_likes` is `$divide` of the total by the
count, `likes` is the total. -/
def averageProjection (groups : List TitleGroup) : List LikeRow :=
  groups.map fun g =>
    { id := g.id
      avg_likes := Float64.div g.total_likes.toDouble (Float64.ofInt g.number_of_comments)
      likes := g.total_likes }

/-- The rows before the stage `sort`. -/
def groupedRows (srv : Server) (games : List Game) : List LikeRow :=
  averageProjection (groupByTitle srv (projectComments (getComments games)))

/-- Order asked of the stage `sort`: `likes` descending. -/
def likesDescending (a b : LikeRow) : Prop :=
  MongoNum.le b.likes a.likes

instance : DecidableRel likesDescending := fun a b => by
  unfold likesDescending
  infer_instance

/-- The pipeline `gameLikePipeline`, run on a collection: the rows, sorted by
insertion. -/
def gameLikePipeline (srv : Server) (games : List Game) : List LikeRow :=
  (groupedRows srv games).insertionSort likesDescending

/-- The sequences of rows the store may deliver for the pipeline: MongoDB
fixes neither the order of the groups nor the order of rows with equal
`likes`, so every arrangement of the rows that is sorted is admitted. -/
def PipelineOutput (srv : Server) (games : List Game) (rows : List LikeRow) : Prop :=
  rows.Perm (groupedRows srv games) ∧ rows.Pairwise likesDescending

/-- Decoding of a row into `gameLikeResult` by `cur.Decode`. -/
def decodeRow (srv : Server) (row : LikeRow) : Except String gameLikeResult :=
  match row.likes with
  | .long n => .ok { Title := row.id, Likes := n, AvgLikes := row.avg_likes }
  | .double f =>
    match srv.decodeDouble f with
    | .ok n => .ok { Title := row.id, Likes := n, AvgLikes := row.avg_likes }
    | .error e => .error e

/-- A data source answers for a collection when its cursor for
`gameLikePipeline` delivers rows the pipeline yields on that collection. -/
def Serves (srv : Server) (games : List Game) (mongo : MongoDataSource) : Prop :=
  ∃ rows, PipelineOutput srv games rows ∧ mongo.gameLike = .ok (rows.map (decodeRow srv))

/-- A game with one comment, which nobody liked. -/
def unlikedGame : Game :=
  { Title := "Unliked"
    Description := ""
    By := ""
    Platform := []
    AgeRating := ""
    Likes := 0
    Comments := [{ User := "Courtney Knapp", Message := "", DateCreated := 0, Like := 0 }] }

/-- The `gameLikeResult` a row with a 64-bit `likes` decodes into. -/
def rowResult (row : LikeRow) : gameLikeResult :=
  { Title := row.id
    Likes := match row.likes with
      | .long n => n
      | .double _ => 0
    AvgLikes := row.avg_likes }

/-- The data source over a collection that holds the two mock games. -/
def mockStore (srv : Server) : MongoDataSource :=
  { commentsPerUser := .ok [(⟨"Jacqueline Dodson", 2⟩, none), (⟨"Courtney Knapp", 1⟩, none)]
    gameLike := .ok ((gameLikePipeline srv mockGames).map (decodeRow srv)) }

/-- A server for the examples, none of which leaves the 64-bit range: a sum
out of range is answered by the nearest double, and no double is decoded into
an `int`. -/
def sampleServer : Server :=
  { sumDouble := fun xs => Float64.ofRat (xs.sum : ℚ)
    decodeDouble := fun _ => .error "overflows int64" }

/-- The data source over a collection that holds `unlikedGame` only. -/
def unlikedStore : MongoDataSource :=
  { commentsPerUser := .ok [(⟨"Courtney Knapp", 1⟩, none)]
    gameLike := .ok ((gameLikePipeline sampleServer [unlikedGame]).map (decodeRow sampleServer)) }

/-- The data source over a collection that holds `dummyGame` only. -/
def dummyStore : MongoDataSource :=
  { commentsPerUser := .ok [(⟨"Jacqueline Dodson", 1⟩, none)]
    gameLike := .ok ((gameLikePipeline sampleServer [dummyGame]).map (decodeRow sampleServer)) }

/-! ## The HTTP handler (`gameservice/handler.go`)

A response is followed on a recorder like `httptest.ResponseRecorder`.  The
body is kept as the sequence of values handed to `json.Encoder.Encode`, each
standing for its JSON document: `encoding/json` fails on no value of the
types `Game` and `Error`, and the buffer of a recorder accepts every write. -/

/-- Error of `model.go`, the error response of the service (`{"error": Msg}`). -/
structure Error where
  Msg : String
deriving DecidableEq

/-- A JSON document of a response body, as the value it encodes. -/
inductive JSONBody where
  | game (g : Game)
  | error (e : Error)
deriving DecidableEq

/-- Recorder of a response: status code, headers, body, and whether the
header has been written. -/
structure ResponseRecorder where
  Code : Int
  HeaderMap : List (String × String)
  Body : List JSONBody
  wroteHeader : Bool
deriving DecidableEq

/-- Function `httptest.NewRecorder`: the code of a fresh recorder is 200. -/
def NewRecorder : ResponseRecorder :=
  { Code := 200, HeaderMap := [], Body := [], wroteHeader := false }

/-- Call `w.Header().Set(key, value)`. -/
def ResponseRecorder.SetHeader (w : ResponseRecorder) (key value : String) :
    ResponseRecorder :=
  { w with HeaderMap := (key, value) :: w.HeaderMap.filter (fun e => e.1 != key) }

/-- Call `w.WriteHeader(code)`: only the first call sets the status. -/
def ResponseRecorder.WriteHeader (w : ResponseRecorder) (code : Int) : ResponseRecorder :=
  if w.wroteHeader then w else { w with Code := code, wroteHeader := true }

/-- Call `json.NewEncoder(w).Encode(v)`: the first write sends status 200
when no header has been written; the encoder returns no error. -/
def ResponseRecorder.Encode (w : ResponseRecorder) (v : JSONBody) :
    ResponseRecorder × GoError :=
  let w₁ := w.WriteHeader 200
  ({ w₁ with Body := w₁.Body ++ [v] }, none)

/-- Interface `GameDataSource` of `datasource.go`. -/
structure GameDataSource where
  Game : String → Backend.Game × GoError
  Report : Backend.Report × GoError

/-- Type `Handler` of `handler.go`; the router plays no part in the handling
of one request. -/
structure Handler where
  ds : GameDataSource

/-- Function `noIDError`. -/
def noIDError (w : ResponseRecorder) : ResponseRecorder :=
  ((w.WriteHeader 400).Encode (.error ⟨"Invalid request. Require parameter id."⟩)).1

/-- Function `gameNotFoundError`. -/
def gameNotFoundError (w : ResponseRecorder) (_id : String) (err : String) :
    ResponseRecorder :=
  let w₁ := w.WriteHeader 404
  let r := w₁.Encode (.error ⟨err⟩)
  match r.2 with
  | some _ => r.1.WriteHeader 500
  | none => r.1

/-- Method `getGameEndpoint`; `vars` is the map `mux.Vars(r)` of the request. -/
def Handler.getGameEndpoint (gs : Handler) (vars : List (String × String))
    (w : ResponseRecorder) : ResponseRecorder :=
  let w₁ := w.SetHeader "Content-Type" "application/json"
  match vars.lookup "id" with
  | none => noIDError w₁
  | some gameID =>
    let r := gs.ds.Game gameID
    match r.2 with
    | some err => gameNotFoundError w₁ gameID err
    | none => (w₁.Encode (.game r.1)).1

/-- The zero value of `Game`. -/
def zeroGame : Game :=
  { Title := "", Description := "", By := "", Platform := [], AgeRating := ""
    Likes := 0, Comments := [] }

/-- Data source `mockGameDataSource` of `handler_test.go`. -/
def mockGameDataSource : GameDataSource :=
  { Game := fun id =>
      match id with
      | "1" => (dummyGame, none)
      | "2" => (solitaryVoyage, none)
      | _ => (zeroGame, some "Unable to get game")
    Report := (⟨"", "", []⟩, none) }

/-! ## Notions used by the properties -/

/-- Number of comments of the corpus whose `User` field is `u`. -/
def commentsBy (games : List Game) (u : String) : ℕ :=
  (games.flatMap (fun g => g.Comments)).countP (fun c => c.User == u)

/-- The entries of a map record, for every user, the number of comments read
so far, users without a comment having no entry. -/
def Counts (m : UserMap) (cs : List Comment) : Prop :=
  ∀ u : String, m.lookup u =
    if cs.countP (fun c => c.User == u) = 0 then none
    else some ((cs.countP (fun c => c.User == u) : ℕ) : ℤ)

/-! ## Rounding of `float64` -/

theorem le_roundHalfEven {x : ℚ} {m : ℤ} (h : (m : ℚ) ≤ x) : m ≤ roundHalfEven x := by
  have hf : m ≤ ⌊x⌋ := Int.le_floor.2 h
  unfold roundHalfEven
  simp only
  split_ifs <;> omega

theorem roundHalfEven_le {x : ℚ} {m : ℤ} (h : x ≤ (m : ℚ)) : roundHalfEven x ≤ m := by
  unfold roundHalfEven
  rcases eq_or_lt_of_le h with h | h
  · subst h
    simp
  · have hf : ⌊x⌋ < m := Int.floor_lt.2 h
    simp only
    split_ifs <;> omega

theorem sub_half_le_roundHalfEven (x : ℚ) : x - 1 / 2 ≤ (roundHalfEven x : ℚ) := by
  have h1 := Int.floor_le x
  have h2 := Int.lt_floor_add_one x
  unfold roundHalfEven
  simp only
  split_ifs <;> push_cast <;> linarith

theorem roundHalfEven_le_add_half (x : ℚ) : (roundHalfEven x : ℚ) ≤ x + 1 / 2 := by
  have h1 := Int.floor_le x
  have h2 := Int.lt_floor_add_one x
  unfold roundHalfEven
  simp only
  split_ifs <;> push_cast <;> linarith

theorem ulp_pos (q : ℚ) : 0 < ulp q := by
  unfold ulp
  positivity

/-- In the normal range the grid spacing is `2 ^ (e - 52)` for the exponent `e` with `2 ^ e ≤ |q| < 2 ^ (e + 1)`. -/
theorem ulp_spec {q : ℚ} (h : (2 : ℚ) ^ (-1022 : ℤ) ≤ |q|) :
    ∃ e : ℤ, -1022 ≤ e ∧ ulp q = (2 : ℚ) ^ (e - 52) ∧ (2 : ℚ) ^ e ≤ |q| ∧ |q| < (2 : ℚ) ^ (e + 1) := by
  have hpos : 0 < |q| := lt_of_lt_of_le (by positivity) h
  have he : (-1022 : ℤ) ≤ Int.log 2 |q| := by
    have := (Int.zpow_le_iff_le_log (b := 2) (by norm_num) hpos (x := -1022)).1 (by simpa using h)
    exact this
  refine ⟨Int.log 2 |q|, he, ?_, ?_, ?_⟩
  · unfold ulp
    rw [max_eq_left he]
  · simpa using Int.zpow_log_le_self (b := 2) (by norm_num) hpos
  · simpa using Int.lt_zpow_succ_log_self (b := 2) (by norm_num) |q|


theorem two_zpow_mul (e : ℤ) : (2 : ℚ) ^ (e - 52) * (2 : ℚ) ^ (52 : ℕ) = (2 : ℚ) ^ e := by
  rw [← zpow_natCast, ← zpow_add₀ (by norm_num : (2 : ℚ) ≠ 0)]
  congr 1
  push_cast
  ring

/-- In the normal range the significand lies in `[2^52, 2^53)`. -/
theorem significand_bounds {q : ℚ} (h : (2 : ℚ) ^ (-1022 : ℤ) ≤ |q|) :
    (2 : ℚ) ^ (52 : ℕ) ≤ |q| / ulp q ∧ |q| / ulp q < (2 : ℚ) ^ (53 : ℕ) := by
  obtain ⟨e, _, hu, hlo, hhi⟩ := ulp_spec h
  have hup := ulp_pos q
  constructor
  · rw [le_div_iff₀ hup, hu, mul_comm, two_zpow_mul]
    exact hlo
  · rw [div_lt_iff₀ hup, hu]
    have : (2 : ℚ) ^ (53 : ℕ) * (2 : ℚ) ^ (e - 52) = (2 : ℚ) ^ (e + 1) := by
      rw [pow_succ, mul_comm ((2 : ℚ) ^ 52) 2, mul_assoc, mul_comm ((2 : ℚ) ^ 52), two_zpow_mul,
        zpow_add_one₀ (by norm_num : (2 : ℚ) ≠ 0), mul_comm]
    rw [this]
    exact hhi

/-- Below `2^53` the grid spacing is the inverse of a power of two. -/
theorem ulp_small {q : ℚ} (h : (2 : ℚ) ^ (-1022 : ℤ) ≤ |q|) (hlt : |q| < (2 : ℚ) ^ (53 : ℕ)) :
    ∃ k : ℕ, ulp q = ((2 : ℚ) ^ k)⁻¹ := by
  obtain ⟨e, _, hu, hlo, _⟩ := ulp_spec h
  have h1 : (2 : ℚ) ^ e < (2 : ℚ) ^ (53 : ℤ) := by
    refine lt_of_le_of_lt hlo ?_
    rw [zpow_ofNat]
    exact hlt
  have h2 : e < 53 := (zpow_lt_zpow_iff_right₀ (by norm_num : (1 : ℚ) < 2)).1 h1
  refine ⟨(52 - e).toNat, ?_⟩
  rw [hu, ← zpow_natCast, ← zpow_neg]
  congr 1
  rw [Int.toNat_of_nonneg (by omega)]
  ring

theorem roundMag_eq_of_ulp {q : ℚ} {k : ℕ} (hk : ulp q = ((2 : ℚ) ^ k)⁻¹) :
    roundMag q = (roundHalfEven (|q| * (2 : ℚ) ^ k) : ℚ) / (2 : ℚ) ^ k := by
  unfold roundMag
  rw [hk, div_inv_eq_mul, div_eq_mul_inv]

/-- Rounding a magnitude below `2^53` never crosses an integer. -/
theorem intCast_le_roundMag {q : ℚ} (h : (2 : ℚ) ^ (-1022 : ℤ) ≤ |q|)
    (hlt : |q| < (2 : ℚ) ^ (53 : ℕ)) {m : ℤ} (hm : (m : ℚ) ≤ |q|) : (m : ℚ) ≤ roundMag q := by
  obtain ⟨k, hk⟩ := ulp_small h hlt
  have hP : (0 : ℚ) < (2 : ℚ) ^ k := by positivity
  rw [roundMag_eq_of_ulp hk, le_div_iff₀ hP]
  have : ((m * 2 ^ k : ℤ) : ℚ) ≤ |q| * (2 : ℚ) ^ k := by
    push_cast
    exact mul_le_mul_of_nonneg_right hm hP.le
  have := le_roundHalfEven this
  exact_mod_cast this

theorem roundMag_le_intCast {q : ℚ} (h : (2 : ℚ) ^ (-1022 : ℤ) ≤ |q|)
    (hlt : |q| < (2 : ℚ) ^ (53 : ℕ)) {m : ℤ} (hm : |q| ≤ (m : ℚ)) : roundMag q ≤ (m : ℚ) := by
  obtain ⟨k, hk⟩ := ulp_small h hlt
  have hP : (0 : ℚ) < (2 : ℚ) ^ k := by positivity
  rw [roundMag_eq_of_ulp hk, div_le_iff₀ hP]
  have : |q| * (2 : ℚ) ^ k ≤ ((m * 2 ^ k : ℤ) : ℚ) := by
    push_cast
    exact mul_le_mul_of_nonneg_right hm hP.le
  have := roundHalfEven_le this
  exact_mod_cast this


/-- For a quotient of naturals with numerator below `2^53`, an integer is at
least half a grid step away unless it is the quotient itself. -/
theorem half_lt_step {q : ℚ} {a n k : ℕ} (ha : a < 2 ^ 53) (hn : 0 < n)
    (hq : |q| = (a : ℚ) / n) (hsig : (2 : ℚ) ^ (52 : ℕ) ≤ |q| * (2 : ℚ) ^ k) :
    (1 : ℚ) / 2 < (2 : ℚ) ^ k / n := by
  have hn' : (0 : ℚ) < n := by exact_mod_cast hn
  have ha' : (a : ℚ) < 2 ^ 53 := by exact_mod_cast ha
  have hP : (0 : ℚ) < (2 : ℚ) ^ k := by positivity
  rw [hq, div_mul_eq_mul_div, le_div_iff₀ hn'] at hsig
  rw [lt_div_iff₀ hn']
  have h1 : (a : ℚ) * 2 ^ k < 2 ^ 53 * 2 ^ k := mul_lt_mul_of_pos_right ha' hP
  have h2 : (2 : ℚ) ^ 52 * n < 2 ^ 52 * (2 * 2 ^ k) := by
    calc (2 : ℚ) ^ 52 * n ≤ a * 2 ^ k := hsig
      _ < 2 ^ 53 * 2 ^ k := h1
      _ = 2 ^ 52 * (2 * 2 ^ k) := by ring
  have h3 : (n : ℚ) < 2 * 2 ^ k := lt_of_mul_lt_mul_left h2 (by positivity)
  linarith

theorem intCast_lt_roundMag {q : ℚ} {a n : ℕ} (ha : a < 2 ^ 53) (hn : 0 < n)
    (hq : |q| = (a : ℚ) / n) (h : (2 : ℚ) ^ (-1022 : ℤ) ≤ |q|) {m : ℤ}
    (hm : (m : ℚ) < |q|) : (m : ℚ) < roundMag q := by
  have hn' : (0 : ℚ) < n := by exact_mod_cast hn
  have ha' : (a : ℚ) < 2 ^ 53 := by exact_mod_cast ha
  have hlt : |q| < (2 : ℚ) ^ (53 : ℕ) := by
    rw [hq, div_lt_iff₀ hn']
    have : (1 : ℚ) ≤ n := by exact_mod_cast hn
    nlinarith
  obtain ⟨k, hk⟩ := ulp_small h hlt
  have hP : (0 : ℚ) < (2 : ℚ) ^ k := by positivity
  have hsig := (significand_bounds h).1
  rw [hk, div_inv_eq_mul] at hsig
  have hstep := half_lt_step ha hn hq hsig
  have hgap : (m : ℚ) + 1 / n ≤ |q| := by
    rw [hq, lt_div_iff₀ hn'] at hm
    have h1 : m * (n : ℤ) < (a : ℤ) := by exact_mod_cast hm
    have h2 : ((m * (n : ℤ) + 1 : ℤ) : ℚ) ≤ ((a : ℤ) : ℚ) := by exact_mod_cast h1
    rw [hq, le_div_iff₀ hn']
    push_cast at h2
    rw [add_mul, one_div, inv_mul_cancel₀ hn'.ne']
    exact h2
  rw [roundMag_eq_of_ulp hk, lt_div_iff₀ hP]
  have h3 := sub_half_le_roundHalfEven (|q| * (2 : ℚ) ^ k)
  have h4 : ((m : ℚ) + 1 / n) * 2 ^ k ≤ |q| * 2 ^ k := mul_le_mul_of_nonneg_right hgap hP.le
  have h5 : ((m : ℚ) + 1 / n) * 2 ^ k = m * 2 ^ k + 2 ^ k / n := by ring
  linarith

theorem roundMag_lt_intCast {q : ℚ} {a n : ℕ} (ha : a < 2 ^ 53) (hn : 0 < n)
    (hq : |q| = (a : ℚ) / n) (h : (2 : ℚ) ^ (-1022 : ℤ) ≤ |q|) {m : ℤ}
    (hm : |q| < (m : ℚ)) : roundMag q < (m : ℚ) := by
  have hn' : (0 : ℚ) < n := by exact_mod_cast hn
  have ha' : (a : ℚ) < 2 ^ 53 := by exact_mod_cast ha
  have hlt : |q| < (2 : ℚ) ^ (53 : ℕ) := by
    rw [hq, div_lt_iff₀ hn']
    have : (1 : ℚ) ≤ n := by exact_mod_cast hn
    nlinarith
  obtain ⟨k, hk⟩ := ulp_small h hlt
  have hP : (0 : ℚ) < (2 : ℚ) ^ k := by positivity
  have hsig := (significand_bounds h).1
  rw [hk, div_inv_eq_mul] at hsig
  have hstep := half_lt_step ha hn hq hsig
  have hgap : |q| ≤ (m : ℚ) - 1 / n := by
    rw [hq, div_lt_iff₀ hn'] at hm
    have h1 : (a : ℤ) < m * (n : ℤ) := by exact_mod_cast hm
    have h2 : (((a : ℤ) + 1 : ℤ) : ℚ) ≤ ((m * (n : ℤ) : ℤ) : ℚ) := by exact_mod_cast h1
    rw [hq, div_le_iff₀ hn']
    push_cast at h2
    rw [sub_mul, one_div, inv_mul_cancel₀ hn'.ne']
    linarith
  rw [roundMag_eq_of_ulp hk, div_lt_iff₀ hP]
  have h3 := roundHalfEven_le_add_half (|q| * (2 : ℚ) ^ k)
  have h4 : |q| * 2 ^ k ≤ ((m : ℚ) - 1 / n) * 2 ^ k := mul_le_mul_of_nonneg_right hgap hP.le
  have h5 : ((m : ℚ) - 1 / n) * 2 ^ k = m * 2 ^ k - 2 ^ k / n := by ring
  linarith

/-- Rounding a quotient of naturals with numerator below `2^53` changes
neither its ceiling nor its floor. -/
theorem ceil_floor_roundMag {q : ℚ} {a n : ℕ} (ha : a < 2 ^ 53) (hn : 0 < n)
    (hq : |q| = (a : ℚ) / n) (h : (2 : ℚ) ^ (-1022 : ℤ) ≤ |q|) :
    ⌈roundMag q⌉ = ⌈|q|⌉ ∧ ⌊roundMag q⌋ = ⌊|q|⌋ := by
  have hn' : (0 : ℚ) < n := by exact_mod_cast hn
  have ha' : (a : ℚ) < 2 ^ 53 := by exact_mod_cast ha
  have hlt : |q| < (2 : ℚ) ^ (53 : ℕ) := by
    rw [hq, div_lt_iff₀ hn']
    have : (1 : ℚ) ≤ n := by exact_mod_cast hn
    nlinarith
  constructor
  · rw [Int.ceil_eq_iff]
    constructor
    · have := intCast_lt_roundMag ha hn hq h (m := ⌈|q|⌉ - 1) (by
        push_cast
        linarith [Int.ceil_lt_add_one |q|])
      exact_mod_cast this
    · exact roundMag_le_intCast h hlt (Int.le_ceil _)
  · rw [Int.floor_eq_iff]
    constructor
    · exact intCast_le_roundMag h hlt (Int.floor_le _)
    · have := roundMag_lt_intCast ha hn hq h (m := ⌊|q|⌋ + 1) (by
        push_cast
        exact Int.lt_floor_add_one _)
      exact_mod_cast this


/-- In the normal range the rounded magnitude stays in the binade of the
argument and within half a grid step of it. -/
theorem roundMag_binade {q : ℚ} (h : (2 : ℚ) ^ (-1022 : ℤ) ≤ |q|) :
    ∃ e : ℤ, -1022 ≤ e ∧ (2 : ℚ) ^ e ≤ |q| ∧ |q| < (2 : ℚ) ^ (e + 1) ∧
      (2 : ℚ) ^ e ≤ roundMag q ∧ roundMag q ≤ (2 : ℚ) ^ (e + 1) ∧
      roundMag q ≤ |q| + (2 : ℚ) ^ (e - 52) / 2 := by
  obtain ⟨e, he, hu, hlo, hhi⟩ := ulp_spec h
  obtain ⟨hs1, hs2⟩ := significand_bounds h
  have hup := ulp_pos q
  have h1 : ((2 ^ 52 : ℤ) : ℚ) ≤ |q| / ulp q := by
    push_cast
    exact hs1
  have h2 : |q| / ulp q ≤ ((2 ^ 53 : ℤ) : ℚ) := by
    push_cast
    exact hs2.le
  have h3 : ((2 ^ 52 : ℤ) : ℚ) ≤ (roundHalfEven (|q| / ulp q) : ℚ) := by
    exact_mod_cast le_roundHalfEven h1
  have h4 : (roundHalfEven (|q| / ulp q) : ℚ) ≤ ((2 ^ 53 : ℤ) : ℚ) := by
    exact_mod_cast roundHalfEven_le h2
  push_cast at h3 h4
  have e1 : (2 : ℚ) ^ e = 2 ^ 52 * ulp q := by
    rw [hu, mul_comm, two_zpow_mul]
  have e2 : (2 : ℚ) ^ (e + 1) = 2 ^ 53 * ulp q := by
    rw [zpow_add_one₀ (by norm_num : (2 : ℚ) ≠ 0), e1]
    ring
  refine ⟨e, he, hlo, hhi, ?_, ?_, ?_⟩
  · rw [e1]
    exact mul_le_mul_of_nonneg_right h3 hup.le
  · rw [e2]
    exact mul_le_mul_of_nonneg_right h4 hup.le
  · have h5 := roundHalfEven_le_add_half (|q| / ulp q)
    have h6 := mul_le_mul_of_nonneg_right h5 hup.le
    have h7 : (|q| / ulp q + 1 / 2) * ulp q = |q| + ulp q / 2 := by
      field_simp
      ring
    rw [h7] at h6
    rw [← hu]
    exact h6

theorem normal_of_one_le {q : ℚ} (h : 1 ≤ |q|) : (2 : ℚ) ^ (-1022 : ℤ) ≤ |q| := by
  refine le_trans ?_ h
  have : (2 : ℚ) ^ (-1022 : ℤ) ≤ (2 : ℚ) ^ (0 : ℤ) :=
    zpow_le_zpow_right₀ (by norm_num) (by norm_num)
  simpa using this

/-- An integer of magnitude below `2^53` is a `float64`. -/
theorem ofRat_intCast {z : ℤ} (hz : |z| < 2 ^ 53) : Float64.ofRat (z : ℚ) = .fin (z : ℚ) := by
  unfold Float64.ofRat
  by_cases h0 : (z : ℚ) = 0
  · rw [if_pos h0, h0]
  rw [if_neg h0]
  have hz0 : z ≠ 0 := by exact_mod_cast h0
  have habs : |(z : ℚ)| = ((|z| : ℤ) : ℚ) := by push_cast; rfl
  have h1 : (1 : ℚ) ≤ |(z : ℚ)| := by
    rw [habs]
    exact_mod_cast Int.one_le_abs hz0
  have hn := normal_of_one_le h1
  have hlt : |(z : ℚ)| < (2 : ℚ) ^ (53 : ℕ) := by
    rw [habs]
    exact_mod_cast hz
  have hr : roundMag (z : ℚ) = |(z : ℚ)| := by
    apply le_antisymm
    · rw [habs]
      exact roundMag_le_intCast hn hlt (le_of_eq habs)
    · rw [habs]
      exact intCast_le_roundMag hn hlt (le_of_eq habs.symm)
  have hno : ¬ (2 : ℚ) ^ (1024 : ℕ) ≤ roundMag (z : ℚ) := by
    rw [hr, not_le]
    refine lt_trans hlt ?_
    exact pow_lt_pow_right₀ (by norm_num) (by norm_num)
  rw [if_neg hno, hr]
  by_cases hp : (0 : ℚ) < z
  · rw [if_pos hp, abs_of_pos hp]
  · rw [if_neg hp, abs_of_nonpos (not_lt.1 hp), neg_neg]

/-- A length from `2^53` up to the largest `int` converts to a finite
`float64` that is still at least `2^53`. -/
theorem ofRat_natCast_big {n : ℕ} (h1 : 2 ^ 53 ≤ n) (h2 : n < 2 ^ 63) :
    ∃ d : ℚ, Float64.ofRat (n : ℚ) = .fin d ∧ (2 : ℚ) ^ (53 : ℕ) ≤ d ∧ d ≤ (2 : ℚ) ^ (63 : ℕ) := by
  have hpos : (0 : ℚ) < n := by
    have : 0 < n := lt_of_lt_of_le (by norm_num) h1
    exact_mod_cast this
  have habs : |(n : ℚ)| = n := abs_of_pos hpos
  have hlo : (2 : ℚ) ^ (53 : ℕ) ≤ n := by exact_mod_cast h1
  have hhi : (n : ℚ) < (2 : ℚ) ^ (63 : ℕ) := by exact_mod_cast h2
  have hnorm : (2 : ℚ) ^ (-1022 : ℤ) ≤ |(n : ℚ)| := by
    apply normal_of_one_le
    rw [habs]
    exact le_trans (one_le_pow₀ (by norm_num)) hlo
  obtain ⟨e, _, he1, he2, hr1, hr2, _⟩ := roundMag_binade hnorm
  rw [habs] at he1 he2
  have e53 : (53 : ℤ) ≤ e := by
    have : (2 : ℚ) ^ (53 : ℤ) < (2 : ℚ) ^ (e + 1) := by
      rw [zpow_ofNat]
      exact lt_of_le_of_lt hlo he2
    have := (zpow_lt_zpow_iff_right₀ (by norm_num : (1 : ℚ) < 2)).1 this
    omega
  have e62 : e + 1 ≤ (63 : ℤ) := by
    have : (2 : ℚ) ^ e < (2 : ℚ) ^ (63 : ℤ) := by
      rw [zpow_ofNat]
      exact lt_of_le_of_lt he1 hhi
    have := (zpow_lt_zpow_iff_right₀ (by norm_num : (1 : ℚ) < 2)).1 this
    omega
  have hd1 : (2 : ℚ) ^ (53 : ℕ) ≤ roundMag (n : ℚ) := by
    refine le_trans ?_ hr1
    rw [← zpow_ofNat]
    exact zpow_le_zpow_right₀ (by norm_num) e53
  have hd2 : roundMag (n : ℚ) ≤ (2 : ℚ) ^ (63 : ℕ) := by
    refine le_trans hr2 ?_
    rw [← zpow_ofNat]
    exact zpow_le_zpow_right₀ (by norm_num) e62
  refine ⟨roundMag (n : ℚ), ?_, hd1, hd2⟩
  unfold Float64.ofRat
  rw [if_neg hpos.ne', if_neg, if_pos hpos]
  rw [not_le]
  exact lt_of_le_of_lt hd2 (pow_lt_pow_right₀ (by norm_num) (by norm_num))


/-- Below one, and at least `2^-53` away from it, a magnitude rounds to a
value strictly between zero and one. -/
theorem roundMag_unit {q : ℚ} (h : (2 : ℚ) ^ (-1022 : ℤ) ≤ |q|)
    (hq : |q| ≤ 1 - ((2 : ℚ) ^ (53 : ℕ))⁻¹) : 0 < roundMag q ∧ roundMag q < 1 := by
  obtain ⟨e, _, he1, _, hr1, _, hr3⟩ := roundMag_binade h
  have hinv : (0 : ℚ) < ((2 : ℚ) ^ (53 : ℕ))⁻¹ := by positivity
  constructor
  · exact lt_of_lt_of_le (by positivity) hr1
  · have hlt : (2 : ℚ) ^ e < (2 : ℚ) ^ (0 : ℤ) := by
      rw [zpow_zero]
      linarith
    have he : e < 0 := (zpow_lt_zpow_iff_right₀ (by norm_num : (1 : ℚ) < 2)).1 hlt
    have hu : (2 : ℚ) ^ (e - 52) ≤ (2 : ℚ) ^ (-53 : ℤ) :=
      zpow_le_zpow_right₀ (by norm_num) (by omega)
    have h53 : (2 : ℚ) ^ (-53 : ℤ) = ((2 : ℚ) ^ (53 : ℕ))⁻¹ := by
      rw [zpow_neg, zpow_ofNat]
    rw [h53] at hu
    linarith

theorem normal_of_div {a : ℕ} {d : ℚ} (ha : 0 < a) (hd : 0 < d) (hd2 : d ≤ (2 : ℚ) ^ (63 : ℕ)) :
    (2 : ℚ) ^ (-1022 : ℤ) ≤ (a : ℚ) / d := by
  have h1 : (2 : ℚ) ^ (-1022 : ℤ) ≤ (2 : ℚ) ^ (-63 : ℤ) :=
    zpow_le_zpow_right₀ (by norm_num) (by norm_num)
  have h2 : (2 : ℚ) ^ (-63 : ℤ) = 1 / (2 : ℚ) ^ (63 : ℕ) := by
    rw [zpow_neg, zpow_ofNat, one_div]
  have h3 : 1 / (2 : ℚ) ^ (63 : ℕ) ≤ 1 / d := one_div_le_one_div_of_le hd hd2
  have h4 : 1 / d ≤ (a : ℚ) / d := by
    apply div_le_div_of_nonneg_right _ hd.le
    exact_mod_cast ha
  linarith

/-- The quotient of the program: numerator of magnitude `a` below `2^53`,
denominator the conversion of a length `n`.  Rounding the denominator and
then the quotient leaves the ceiling and the floor of `a / n` unchanged. -/
theorem roundMag_quotient {a n : ℕ} (ha0 : 0 < a) (ha : a < 2 ^ 53) (hn : 0 < n)
    (hn2 : n < 2 ^ 63) :
    ∃ d : ℚ, Float64.ofRat (n : ℚ) = .fin d ∧ 0 < d ∧ ∀ q : ℚ, |q| = (a : ℚ) / d →
      ⌈roundMag q⌉ = ⌈(a : ℚ) / n⌉ ∧ ⌊roundMag q⌋ = ⌊(a : ℚ) / n⌋ ∧
      roundMag q < (2 : ℚ) ^ (1024 : ℕ) := by
  have hn' : (0 : ℚ) < n := by exact_mod_cast hn
  have ha0' : (0 : ℚ) < a := by exact_mod_cast ha0
  have ha1 : (1 : ℚ) ≤ a := by exact_mod_cast ha0
  have ha' : (a : ℚ) < 2 ^ 53 := by exact_mod_cast ha
  have hbig : (2 : ℚ) ^ (53 : ℕ) < (2 : ℚ) ^ (1024 : ℕ) :=
    pow_lt_pow_right₀ (by norm_num) (by norm_num)
  by_cases hsmall : n < 2 ^ 53
  · refine ⟨n, ?_, hn', ?_⟩
    · have := ofRat_intCast (z := (n : ℤ)) (by
        rw [abs_of_nonneg (by positivity)]
        exact_mod_cast hsmall)
      simpa using this
    · intro q hq
      have hn63 : (n : ℚ) ≤ (2 : ℚ) ^ (63 : ℕ) := by exact_mod_cast hn2.le
      have hnorm : (2 : ℚ) ^ (-1022 : ℤ) ≤ |q| := by
        rw [hq]
        exact normal_of_div ha0 hn' hn63
      obtain ⟨hc, hf⟩ := ceil_floor_roundMag ha hn hq hnorm
      rw [hq] at hc hf
      refine ⟨hc, hf, ?_⟩
      have hle : |q| ≤ ((a : ℤ) : ℚ) := by
        rw [hq, Int.cast_natCast, div_le_iff₀ hn']
        have : (1 : ℚ) ≤ n := by exact_mod_cast hn
        nlinarith
      have hlt : |q| < (2 : ℚ) ^ (53 : ℕ) := lt_of_le_of_lt hle (by simpa using ha')
      have := roundMag_le_intCast hnorm hlt hle
      rw [Int.cast_natCast] at this
      linarith
  · obtain ⟨d, hd, hd1, hd2⟩ := ofRat_natCast_big (not_lt.1 hsmall) hn2
    have hdpos : 0 < d := lt_of_lt_of_le (by positivity) hd1
    refine ⟨d, hd, hdpos, ?_⟩
    intro q hq
    have hnorm : (2 : ℚ) ^ (-1022 : ℤ) ≤ |q| := by
      rw [hq]
      exact normal_of_div ha0 hdpos hd2
    have hq1 : |q| ≤ 1 - ((2 : ℚ) ^ (53 : ℕ))⁻¹ := by
      rw [hq, div_le_iff₀ hdpos]
      have h1 : (a : ℚ) + 1 ≤ 2 ^ 53 := by exact_mod_cast ha
      have h2 : (1 - ((2 : ℚ) ^ (53 : ℕ))⁻¹) * 2 ^ 53 = 2 ^ 53 - 1 := by
        rw [sub_mul, inv_mul_cancel₀ (by positivity)]
        ring
      have h3 : (1 - ((2 : ℚ) ^ (53 : ℕ))⁻¹) * 2 ^ 53 ≤ (1 - ((2 : ℚ) ^ (53 : ℕ))⁻¹) * d := by
        apply mul_le_mul_of_nonneg_left hd1
        rw [sub_nonneg]
        exact inv_le_one_of_one_le₀ (one_le_pow₀ (by norm_num))
      linarith
    obtain ⟨hr0, hr1⟩ := roundMag_unit hnorm hq1
    have hn53 : (2 : ℚ) ^ (53 : ℕ) ≤ n := by exact_mod_cast not_lt.1 hsmall
    have hx0 : (0 : ℚ) < (a : ℚ) / n := div_pos ha0' hn'
    have hx1 : (a : ℚ) / n < 1 := by
      rw [div_lt_one hn']
      linarith
    have c1 : ⌈roundMag q⌉ = 1 := by
      rw [Int.ceil_eq_iff]
      constructor <;> push_cast <;> linarith
    have c2 : ⌈(a : ℚ) / n⌉ = 1 := by
      rw [Int.ceil_eq_iff]
      constructor <;> push_cast <;> linarith
    have f1 : ⌊roundMag q⌋ = 0 := by
      rw [Int.floor_eq_iff]
      constructor <;> push_cast <;> linarith
    have f2 : ⌊(a : ℚ) / n⌋ = 0 := by
      rw [Int.floor_eq_iff]
      constructor <;> push_cast <;> linarith
    refine ⟨by rw [c1, c2], by rw [f1, f2], ?_⟩
    · have : (1 : ℚ) < (2 : ℚ) ^ (1024 : ℕ) := one_lt_pow₀ (by norm_num) (by norm_num)
      linarith


theorem toInt_fin_intCast (arch : Arch) (z : ℤ) (h : -2 ^ 63 ≤ z ∧ z < 2 ^ 63) :
    Float64.toInt arch (.fin (z : ℚ)) = z := by
  simp only [Float64.toInt, Int.ceil_intCast, Int.floor_intCast, ite_self]
  rw [if_pos h]

/-- The quotient, ceiling and conversion of `processLikes` compute the exact
ceiling of `s / n` when `|s| < 2^53` and `n` is a positive length. -/
theorem toInt_ceil_div (arch : Arch) (s : ℤ) (n : ℕ) (hs : |s| < 2 ^ 53) (hn : 0 < n)
    (hn2 : n < 2 ^ 63) :
    Float64.toInt arch
      (Float64.ceil (Float64.div (Float64.ofInt s) (Float64.ofInt (n : ℤ))))
      = ⌈(s : ℚ) / (n : ℚ)⌉ := by
  have hn' : (0 : ℚ) < n := by exact_mod_cast hn
  have hn1 : (1 : ℚ) ≤ n := by exact_mod_cast hn
  have hsq : |(s : ℚ)| < 2 ^ 53 := by exact_mod_cast hs
  -- the result fits an `int`
  have hrange : -2 ^ 63 ≤ ⌈(s : ℚ) / (n : ℚ)⌉ ∧ ⌈(s : ℚ) / (n : ℚ)⌉ < 2 ^ 63 := by
    have hle : (s : ℚ) / n ≤ ((|s| : ℤ) : ℚ) := by
      rw [div_le_iff₀ hn']
      push_cast
      have := le_abs_self (s : ℚ)
      have := abs_nonneg (s : ℚ)
      nlinarith
    have hge : ((-|s| : ℤ) : ℚ) ≤ (s : ℚ) / n := by
      rw [le_div_iff₀ hn']
      push_cast
      have := neg_abs_le (s : ℚ)
      have := abs_nonneg (s : ℚ)
      nlinarith
    have h1 : ⌈(s : ℚ) / (n : ℚ)⌉ ≤ |s| := Int.ceil_le.2 hle
    have h2 : -|s| ≤ ⌈(s : ℚ) / (n : ℚ)⌉ := by
      have := le_trans hge (Int.le_ceil ((s : ℚ) / n))
      exact_mod_cast this
    constructor <;> omega
  suffices hres : Float64.ceil (Float64.div (Float64.ofInt s) (Float64.ofInt (n : ℤ)))
      = .fin ((⌈(s : ℚ) / (n : ℚ)⌉ : ℤ) : ℚ) by
    rw [hres]
    exact toInt_fin_intCast arch _ hrange
  unfold Float64.ofInt
  rw [ofRat_intCast hs, Int.cast_natCast]
  by_cases h0 : s = 0
  · obtain ⟨d, hd, hdpos, _⟩ := roundMag_quotient (a := 1) (by norm_num) (by norm_num) hn hn2
    rw [hd, h0]
    simp [Float64.div, hdpos.ne', Float64.ofRat, Float64.ceil]
  · have ha0 : 0 < s.natAbs := Int.natAbs_pos.2 h0
    have ha : s.natAbs < 2 ^ 53 := by
      have : ((s.natAbs : ℕ) : ℤ) < 2 ^ 53 := by
        rw [Int.natCast_natAbs]
        exact hs
      exact_mod_cast this
    have hcast : ((s.natAbs : ℕ) : ℚ) = |(s : ℚ)| := by
      rw [Nat.cast_natAbs, Int.cast_abs]
    obtain ⟨d, hd, hdpos, hq⟩ := roundMag_quotient ha0 ha hn hn2
    have hs0 : (s : ℚ) ≠ 0 := by exact_mod_cast h0
    have hqabs : |(s : ℚ) / d| = ((s.natAbs : ℕ) : ℚ) / d := by
      rw [abs_div, abs_of_pos hdpos, hcast]
    obtain ⟨hc, hf, hfin⟩ := hq _ hqabs
    rw [hd]
    simp only [Float64.div, if_neg hdpos.ne', Float64.ofRat, if_neg (div_ne_zero hs0 hdpos.ne'),
      if_neg (not_le.2 hfin)]
    rcases lt_or_gt_of_ne hs0 with hneg | hpos
    · have hq0 : ¬ (0 : ℚ) < (s : ℚ) / d := not_lt.2 (div_nonpos_of_nonpos_of_nonneg hneg.le hdpos.le)
      rw [if_neg hq0]
      simp only [Float64.ceil]
      rw [Int.ceil_neg, hf, hcast, abs_of_neg hneg, neg_div, Int.floor_neg, neg_neg]
    · have hq0 : (0 : ℚ) < (s : ℚ) / d := div_pos hpos hdpos
      rw [if_pos hq0]
      simp only [Float64.ceil]
      rw [hc, hcast, abs_of_pos hpos]

/-! ## The sum of likes -/

theorem wrapInt64_of_range {x : ℤ} (h1 : -2 ^ 63 ≤ x) (h2 : x < 2 ^ 63) : wrapInt64 x = x := by
  unfold wrapInt64
  rw [Int.emod_eq_of_lt (by omega) (by omega)]
  omega

theorem wrapInt64_add (a b : ℤ) : wrapInt64 (wrapInt64 a + b) = wrapInt64 (a + b) := by
  unfold wrapInt64
  have h : ((a + 2 ^ 63) % 2 ^ 64 - 2 ^ 63 + b + 2 ^ 63) % 2 ^ 64 = (a + b + 2 ^ 63) % 2 ^ 64 := by
    omega
  rw [h]

theorem foldl_likes (cs : List Comment) (init : ℤ) :
    cs.foldl (fun sum comment => wrapInt64 (sum + comment.Like)) (wrapInt64 init)
      = wrapInt64 (init + (cs.map Comment.Like).sum) := by
  induction cs generalizing init with
  | nil => simp
  | cons c cs ih =>
    rw [List.foldl_cons, wrapInt64_add, ih, List.map_cons, List.sum_cons, add_assoc]

/-- The running sum is the exact sum of the likes, wrapped once. -/
theorem likeSum_eq_wrap (cs : List Comment) :
    likeSum cs = wrapInt64 ((cs.map Comment.Like).sum) := by
  have h := foldl_likes cs 0
  rw [zero_add] at h
  exact h

/-- Within the range of `int` the total the engine computes is the exact sum
of the likes of the game. -/
theorem totalLikes_eq_sum (g : Game) (h1 : -2 ^ 63 ≤ (g.Comments.map Comment.Like).sum)
    (h2 : (g.Comments.map Comment.Like).sum < 2 ^ 63) :
    totalLikes g = (g.Comments.map Comment.Like).sum := by
  unfold totalLikes
  rw [likeSum_eq_wrap]
  exact wrapInt64_of_range h1 h2

/-! ## Properties of the streaming accumulator -/

theorem accumulate_nil (arch : Arch) : accumulate arch [] = newReportAcc := rfl

theorem accumulate_append_singleton (arch : Arch) (gs : List Game) (g : Game) :
    accumulate arch (gs ++ [g]) = (accumulate arch gs).processGame arch g := by
  simp [accumulate, List.foldl_append]

theorem processLikes_total (arch : Arch) (g : Game) :
    (processLikes arch g).2 = totalLikes g := rfl

theorem selected_accumulate (arch : Arch) (gs : List Game) :
    Selected gs (accumulate arch gs).mostLiked := by
  induction gs using List.reverseRecOn with
  | nil => exact Or.inl ⟨rfl, by simp⟩
  | append_singleton gs g ih =>
    rw [accumulate_append_singleton]
    simp only [reportAccumulator.processGame, processLikes_total]
    rcases ih with ⟨hm, hle⟩ | ⟨pre, c, post, hgs, hm, hpos, hpre, hpost⟩
    · rw [hm]
      by_cases hg : totalLikes g > 0
      · rw [if_pos hg]
        refine Or.inr ⟨gs, g, [], rfl, rfl, hg, ?_, by simp⟩
        intro x hx
        exact lt_of_le_of_lt (hle x hx) hg
      · rw [if_neg hg]
        refine Or.inl ⟨rfl, ?_⟩
        intro x hx
        rcases List.mem_append.1 hx with h | h
        · exact hle x h
        · rw [List.mem_singleton.1 h]
          exact not_lt.1 hg
    · rw [hm]
      by_cases hg : totalLikes g > totalLikes c
      · rw [if_pos hg]
        refine Or.inr ⟨gs, g, [], rfl, rfl, lt_trans hpos hg, ?_, by simp⟩
        intro x hx
        rw [hgs] at hx
        rcases List.mem_append.1 hx with h | h
        · exact lt_trans (hpre x h) hg
        · rcases List.mem_cons.1 h with h | h
          · rw [h]
            exact hg
          · exact lt_of_le_of_lt (hpost x h) hg
      · rw [if_neg hg]
        refine Or.inr ⟨pre, c, post ++ [g], by simp [hgs], rfl, hpos, hpre, ?_⟩
        intro x hx
        rcases List.mem_append.1 hx with h | h
        · exact hpost x h
        · rw [List.mem_singleton.1 h]
          exact not_lt.1 hg

theorem likeSum_nil : likeSum [] = 0 := rfl

theorem accumulate_averageLikes (arch : Arch) (gs : List Game) :
    (accumulate arch gs).averageLikes =
      gs.map (fun g => (⟨g.Title, (processLikes arch g).1⟩ : GameAverageLikes)) := by
  induction gs using List.reverseRecOn with
  | nil => rfl
  | append_singleton gs g ih =>
    rw [accumulate_append_singleton]
    simp [reportAccumulator.processGame, ih]

theorem accumulate_averageLikes_report (arch : Arch) (gs : List Game)
    (order : List (String × Int)) :
    ((accumulate arch gs).report order).AverageLikesPerGame =
      gs.map (fun g => (⟨g.Title, (processLikes arch g).1⟩ : GameAverageLikes)) :=
  accumulate_averageLikes arch gs

/-- C1 (as amended): when some game of the corpus has a positive total-likes,
the `HighestRatedGame` of the report is the title of a game of the corpus
whose total-likes is at least the total-likes of every game of the corpus;
on the corpus Dummy (likes 5, 1) and Solitary Voyage (like 9) it is
"Solitary Voyage". -/
theorem highestRatedGame_is_maximal (arch : Arch) (gs : List Game)
    (order : List (String × Int)) (h : ∃ g ∈ gs, 0 < totalLikes g) :
    (∃ g ∈ gs, ((accumulate arch gs).report order).HighestRatedGame = g.Title ∧
      ∀ x ∈ gs, totalLikes x ≤ totalLikes g) ∧
    ((accumulate arch mockGames).report order).HighestRatedGame = "Solitary Voyage" := by
  refine ⟨?_, rfl⟩
  obtain ⟨w, hw, hwpos⟩ := h
  rcases selected_accumulate arch gs with ⟨_, hle⟩ | ⟨pre, c, post, hgs, hm, _, hpre, hpost⟩
  · exact absurd hwpos (not_lt.2 (hle w hw))
  · refine ⟨c, by simp [hgs], ?_, ?_⟩
    · simp [reportAccumulator.report, hm]
    · intro x hx
      rw [hgs] at hx
      rcases List.mem_append.1 hx with h1 | h1
      · exact le_of_lt (hpre x h1)
      · rcases List.mem_cons.1 h1 with h2 | h2
        · rw [h2]
        · exact hpost x h2

/-- Witness of C1 (as amended), on the two mock games. -/
theorem highestRatedGame_is_maximal_witness :
    (∃ g ∈ mockGames, 0 < totalLikes g) ∧
    (∃ g ∈ mockGames, ((accumulate amd64 mockGames).report []).HighestRatedGame = g.Title ∧
      ∀ x ∈ mockGames, totalLikes x ≤ totalLikes g) ∧
    ((accumulate amd64 mockGames).report []).HighestRatedGame = "Solitary Voyage" :=
  ⟨by decide, highestRatedGame_is_maximal amd64 mockGames [] (by decide)⟩

/-- C1 as stated fails: on the one-game corpus made of a game without
comments the report names no game of the corpus, its `HighestRatedGame` is
the empty string. -/
theorem highestRatedGame_not_always_a_title :
    [silentGame] ≠ [] ∧ RangeOrder (accumulate amd64 [silentGame]).users [] ∧
    ((accumulate amd64 [silentGame]).report []).HighestRatedGame = "" ∧
    ¬ ∃ g ∈ [silentGame],
      ((accumulate amd64 [silentGame]).report []).HighestRatedGame = g.Title ∧
      ∀ x ∈ [silentGame], totalLikes x ≤ totalLikes g := by
  decide

theorem foldl_reportStep_fst (order : List (String × Int)) (st : Int × String) :
    (order.foldl reportStep st).1 = st.1 := by
  induction order generalizing st with
  | nil => rfl
  | cons e rest ih =>
    rw [List.foldl_cons, ih]
    unfold reportStep
    split_ifs <;> rfl

/-- The scan of `report` never raises `maxComments`: the name returned is the
one of the last entry visited, whenever that entry has a positive count. -/
theorem report_last_entry (acc : reportAccumulator) (visited : List (String × Int))
    (name : String) (count : Int) (h : 0 < count) :
    (acc.report (visited ++ [(name, count)])).UserWithMostComments = name := by
  unfold reportAccumulator.report
  simp only [List.foldl_append, List.foldl_cons, List.foldl_nil]
  rw [reportStep, foldl_reportStep_fst, if_pos h]

/-- C2, the code at a failing input: on the two mock games Jacqueline Dodson
has two comments and Courtney Knapp one; when the map is visited in the order
Jacqueline Dodson, Courtney Knapp, `report` answers "Courtney Knapp". -/
theorem userWithMostComments_last_visited :
    RangeOrder (accumulate amd64 mockGames).users
      [("Jacqueline Dodson", 2), ("Courtney Knapp", 1)] ∧
    ((accumulate amd64 mockGames).report
      [("Jacqueline Dodson", 2), ("Courtney Knapp", 1)]).UserWithMostComments
        = "Courtney Knapp" ∧
    (accumulate amd64 mockGames).users.get "Courtney Knapp" = 1 ∧
    (accumulate amd64 mockGames).users.get "Jacqueline Dodson" = 2 := by
  decide

/-- C3, the code at a failing input: for a game without comments
`processLikes` divides `0.0` by `0.0`, and the average is the conversion of
NaN to `int`, which is `-2^63` on amd64; the total is 0. -/
theorem processLikes_no_comments :
    processLikes amd64 silentGame = (-9223372036854775808, 0) ∧
    ((accumulate amd64 [silentGame]).report []).AverageLikesPerGame
      = [⟨"Silent", -9223372036854775808⟩] ∧
    ∀ arch : Arch, processLikes arch silentGame = (arch.cvtUndef Float64.nan, 0) := by
  have h : ∀ arch : Arch, processLikes arch silentGame = (arch.cvtUndef Float64.nan, 0) := by
    intro arch
    simp [processLikes, silentGame, likeSum, Float64.ofInt, Float64.ofRat, Float64.div,
      Float64.ceil, Float64.toInt]
  refine ⟨h amd64, ?_, h⟩
  rw [accumulate_averageLikes_report]
  simp only [List.map_cons, List.map_nil, h amd64]
  rfl

/-- C4: for a game with at least one comment (the length of a Go slice is an
`int`, hence below `2^63`) whose likes, of either sign, have an exact sum of
magnitude below `2^53`, `processLikes` returns that exact sum as total and the
exact ceiling of the sum divided by the number of comments as average; for
the likes 5 and 1 of the mock game Dummy it returns total 6 and average 3. -/
theorem processLikes_exact (arch : Arch) (g : Game) (hne : g.Comments ≠ [])
    (hlen : g.Comments.length < 2 ^ 63)
    (hsum : |(g.Comments.map Comment.Like).sum| < 2 ^ 53) :
    processLikes arch g =
      (⌈(((g.Comments.map Comment.Like).sum : ℤ) : ℚ) / (g.Comments.length : ℚ)⌉,
        (g.Comments.map Comment.Like).sum) ∧
    processLikes arch dummyGame = (3, 6) := by
  have key : ∀ x : Game, x.Comments ≠ [] → x.Comments.length < 2 ^ 63 →
      |(x.Comments.map Comment.Like).sum| < 2 ^ 53 →
      processLikes arch x =
        (⌈(((x.Comments.map Comment.Like).sum : ℤ) : ℚ) / (x.Comments.length : ℚ)⌉,
          (x.Comments.map Comment.Like).sum) := by
    intro x hx hl hs
    have hpos : 0 < x.Comments.length := List.length_pos.2 hx
    have hb := abs_lt.1 hs
    have htot : likeSum x.Comments = (x.Comments.map Comment.Like).sum := by
      rw [likeSum_eq_wrap]
      exact wrapInt64_of_range (by omega) (by omega)
    unfold processLikes
    simp only [htot]
    rw [toInt_ceil_div arch _ _ hs hpos hl]
  refine ⟨key g hne hlen hsum, ?_⟩
  have h := key dummyGame (by decide) (by decide) (by decide)
  rw [h]
  have hc : ⌈(((dummyGame.Comments.map Comment.Like).sum : ℤ) : ℚ)
      / (dummyGame.Comments.length : ℚ)⌉ = 3 := by
    rw [Int.ceil_eq_iff]
    norm_num [dummyGame]
  rw [hc]
  rfl

/-- Witness of C4, on the mock game Dummy. -/
theorem processLikes_exact_witness :
    dummyGame.Comments ≠ [] ∧ dummyGame.Comments.length < 2 ^ 63 ∧
    |(dummyGame.Comments.map Comment.Like).sum| < 2 ^ 53 ∧
    processLikes amd64 dummyGame =
      (⌈(((dummyGame.Comments.map Comment.Like).sum : ℤ) : ℚ)
          / (dummyGame.Comments.length : ℚ)⌉,
        (dummyGame.Comments.map Comment.Like).sum) ∧
    processLikes amd64 dummyGame = (3, 6) :=
  ⟨by decide, by decide, by decide,
    processLikes_exact amd64 dummyGame (by decide) (by decide) (by decide)⟩

/-- C5: the report has one average-likes entry per game of the corpus, and
the entry at each position carries the title of the game at that position. -/
theorem averageLikesPerGame_titles (arch : Arch) (gs : List Game)
    (order : List (String × Int)) :
    ((accumulate arch gs).report order).AverageLikesPerGame.length = gs.length ∧
    ∀ i : ℕ, (((accumulate arch gs).report order).AverageLikesPerGame[i]?).map
      (fun e => e.Title) = (gs[i]?).map (fun g => g.Title) := by
  rw [accumulate_averageLikes_report]
  constructor
  · simp
  · intro i
    rw [List.getElem?_map, Option.map_map]
    rfl

/-- C6: when some game of the corpus has a positive total-likes, the
`HighestRatedGame` of the report is the title of the earliest game whose
total-likes is the greatest of the corpus: every game before it has a
strictly smaller total, no game after it has a greater one, and the game
selected has a positive total, hence at least one comment. -/
theorem highestRatedGame_first_maximum (arch : Arch) (gs : List Game)
    (order : List (String × Int)) (h : ∃ g ∈ gs, 0 < totalLikes g) :
    ∃ pre g post, gs = pre ++ g :: post ∧
      ((accumulate arch gs).report order).HighestRatedGame = g.Title ∧
      (∀ x ∈ pre, totalLikes x < totalLikes g) ∧
      (∀ x ∈ post, totalLikes x ≤ totalLikes g) ∧
      0 < totalLikes g ∧ g.Comments ≠ [] := by
  obtain ⟨w, hw, hwpos⟩ := h
  rcases selected_accumulate arch gs with ⟨_, hle⟩ | ⟨pre, c, post, hgs, hm, hpos, hpre, hpost⟩
  · exact absurd hwpos (not_lt.2 (hle w hw))
  · refine ⟨pre, c, post, hgs, ?_, hpre, hpost, hpos, ?_⟩
    · simp [reportAccumulator.report, hm]
    · intro hnil
      simp [totalLikes, hnil, likeSum_nil] at hpos

/-- Witness of C6, on the two mock games. -/
theorem highestRatedGame_first_maximum_witness :
    (∃ g ∈ mockGames, 0 < totalLikes g) ∧
    ∃ pre g post, mockGames = pre ++ g :: post ∧
      ((accumulate amd64 mockGames).report []).HighestRatedGame = g.Title ∧
      (∀ x ∈ pre, totalLikes x < totalLikes g) ∧
      (∀ x ∈ post, totalLikes x ≤ totalLikes g) ∧
      0 < totalLikes g ∧ g.Comments ≠ [] :=
  ⟨by decide, highestRatedGame_first_maximum amd64 mockGames [] (by decide)⟩

/-- C7: on the empty corpus, that is on the fresh accumulator of
`newReportAcc` before any call of `processGame`, the map has no entry to
visit and `report` returns the empty user name, the empty title and the empty
list. -/
theorem report_empty_corpus (order : List (String × Int))
    (h : RangeOrder newReportAcc.users order) :
    newReportAcc.report order
      = { UserWithMostComments := "", HighestRatedGame := "", AverageLikesPerGame := [] } := by
  have ho : order = [] := by
    simpa [RangeOrder, newReportAcc] using h
  subst ho
  rfl

/-- Witness of C7: the empty visiting order. -/
theorem report_empty_corpus_witness :
    RangeOrder newReportAcc.users [] ∧
    newReportAcc.report []
      = { UserWithMostComments := "", HighestRatedGame := "", AverageLikesPerGame := [] } :=
  ⟨by decide, report_empty_corpus [] (by decide)⟩

/-- The fields `HighestRatedGame` and `AverageLikesPerGame` of a report do
not depend on the order in which the user map is visited. -/
theorem report_fields_any_order (acc : reportAccumulator) (order₁ order₂ : List (String × Int)) :
    (acc.report order₁).HighestRatedGame = (acc.report order₂).HighestRatedGame ∧
    (acc.report order₁).AverageLikesPerGame = (acc.report order₂).AverageLikesPerGame :=
  ⟨rfl, rfl⟩

/-- C8, the code at a failing input: on the two mock games Jacqueline Dodson
has two comments and Courtney Knapp one, so that no tie is involved.  The run
that visits Jacqueline Dodson first reports "Courtney Knapp", the run that
visits Courtney Knapp first reports "Jacqueline Dodson": the two reports of
the same corpus differ. -/
theorem report_twice_mockGames :
    RangeOrder (accumulate amd64 mockGames).users
      [("Jacqueline Dodson", 2), ("Courtney Knapp", 1)] ∧
    RangeOrder (accumulate amd64 mockGames).users
      [("Courtney Knapp", 1), ("Jacqueline Dodson", 2)] ∧
    (accumulate amd64 mockGames).users.get "Jacqueline Dodson" = 2 ∧
    (accumulate amd64 mockGames).users.get "Courtney Knapp" = 1 ∧
    ((accumulate amd64 mockGames).report
      [("Jacqueline Dodson", 2), ("Courtney Knapp", 1)]).UserWithMostComments
        = "Courtney Knapp" ∧
    ((accumulate amd64 mockGames).report
      [("Courtney Knapp", 1), ("Jacqueline Dodson", 2)]).UserWithMostComments
        = "Jacqueline Dodson" ∧
    (accumulate amd64 mockGames).report
      [("Jacqueline Dodson", 2), ("Courtney Knapp", 1)]
      ≠ (accumulate amd64 mockGames).report
        [("Courtney Knapp", 1), ("Jacqueline Dodson", 2)] := by
  refine ⟨by decide, by decide, by decide, by decide, by decide, by decide, ?_⟩
  intro h
  have h2 := congrArg Report.UserWithMostComments h
  revert h2
  decide

/-- With two users that have one comment each, the order of the visit decides
the name reported as well. -/
theorem report_tie_follows_order :
    RangeOrder (accumulate amd64 [dummyGame]).users
      [("Jacqueline Dodson", 1), ("Courtney Knapp", 1)] ∧
    RangeOrder (accumulate amd64 [dummyGame]).users
      [("Courtney Knapp", 1), ("Jacqueline Dodson", 1)] ∧
    ((accumulate amd64 [dummyGame]).report
      [("Jacqueline Dodson", 1), ("Courtney Knapp", 1)]).UserWithMostComments
        = "Courtney Knapp" ∧
    ((accumulate amd64 [dummyGame]).report
      [("Courtney Knapp", 1), ("Jacqueline Dodson", 1)]).UserWithMostComments
        = "Jacqueline Dodson" := by
  refine ⟨by decide, by decide, by decide, by decide⟩

/-! ## Properties of the pushdown strategy -/

/-- When every row decodes, `gamesReport` ends with the title of the last row
in `HighestRatedGame`, and returns no error. -/
theorem gamesReportLoop_last (arch : Arch) (rows : List gameLikeResult) (last : gameLikeResult)
    (report : Report) :
    (gamesReportLoop arch true report ((rows ++ [last]).map Except.ok)).1.HighestRatedGame
      = last.Title ∧
    (gamesReportLoop arch true report ((rows ++ [last]).map Except.ok)).2 = none := by
  induction rows generalizing report with
  | nil => simp [gamesReportLoop]
  | cons r rest ih =>
    simp only [List.cons_append, List.map_cons, gamesReportLoop]
    exact ih _

/-- C9, the code at a failing input: the store delivers the row of Solitary
Voyage (9 likes) and then the row of Dummy (6 likes); `gamesReport` leaves
"Dummy", the title of the last row, in `HighestRatedGame`. -/
theorem gamesReport_keeps_last_title :
    MongoDataSource.gamesReport amd64 ⟨.ok [], .ok mockRows⟩ ⟨"", "", []⟩
      = (⟨"", "Dummy", [⟨"Solitary Voyage", 9⟩, ⟨"Dummy", 3⟩]⟩, none) := by
  have h9 := toInt_fin_intCast amd64 9 (by norm_num)
  have h3 := toInt_fin_intCast amd64 3 (by norm_num)
  simp only [Int.cast_ofNat] at h9 h3
  simp [MongoDataSource.gamesReport, mockRows, gamesReportLoop, Float64.ceil, h9, h3]

theorem lookup_filter_ne (m : UserMap) (k u : String) (h : u ≠ k) :
    (m.filter (fun e => e.1 != k)).lookup u = m.lookup u := by
  induction m with
  | nil => rfl
  | cons e rest ih =>
    obtain ⟨a, b⟩ := e
    by_cases ha : a = k
    · subst ha
      have h1 : (u == a) = false := by simpa using h
      simp [List.filter_cons, List.lookup_cons, h1, ih]
    · have h2 : (a != k) = true := by simpa using ha
      simp only [List.filter_cons, h2, if_true, List.lookup_cons, ih]

theorem lookup_set (m : UserMap) (k u : String) (v : Int) :
    (m.set k v).lookup u = if u = k then some v else m.lookup u := by
  unfold UserMap.set
  by_cases h : u = k
  · subst h
    simp
  · have h1 : (u == k) = false := by simpa using h
    rw [if_neg h, List.lookup_cons, h1]
    exact lookup_filter_ne m k u h

theorem counts_get {m : UserMap} {cs : List Comment} (h : Counts m cs) (u : String) :
    m.get u = ((cs.countP (fun c => c.User == u) : ℕ) : ℤ) := by
  unfold UserMap.get
  rw [h u]
  split_ifs with h0
  · simp [h0]
  · rfl

theorem counts_countComments (cs : List Comment) :
    ∀ (m : UserMap) (done : List Comment), Counts m done →
      Counts (countComments m cs) (done ++ cs) := by
  induction cs with
  | nil =>
    intro m done h
    simpa [countComments] using h
  | cons c rest ih =>
    intro m done h
    have hstep : Counts (m.set c.User (m.get c.User + 1)) (done ++ [c]) := by
      intro u
      rw [lookup_set, List.countP_append]
      by_cases hu : u = c.User
      · subst hu
        rw [if_pos rfl, counts_get h]
        simp [List.countP_cons]
      · have h1 : (c.User == u) = false := by
          simpa using fun h' => hu h'.symm
        rw [if_neg hu, h u]
        simp [List.countP_cons, h1]
    have := ih _ _ hstep
    simpa [countComments] using this

theorem accumulate_users (arch : Arch) (gs : List Game) :
    (accumulate arch gs).users = countComments [] (gs.flatMap (fun g => g.Comments)) := by
  induction gs using List.reverseRecOn with
  | nil => rfl
  | append_singleton gs g ih =>
    rw [accumulate_append_singleton]
    simp [reportAccumulator.processGame, ih, countComments, List.foldl_append]

theorem counts_accumulate (arch : Arch) (gs : List Game) :
    Counts (accumulate arch gs).users (gs.flatMap (fun g => g.Comments)) := by
  rw [accumulate_users]
  have := counts_countComments (gs.flatMap (fun g => g.Comments)) [] [] (fun u => by simp)
  simpa using this

theorem mem_keys_iff (m : UserMap) (u : String) :
    u ∈ m.map Prod.fst ↔ m.lookup u ≠ none := by
  induction m with
  | nil => simp
  | cons e rest ih =>
    obtain ⟨a, b⟩ := e
    by_cases h : u = a
    · subst h
      simp
    · have h1 : (u == a) = false := by simpa using h
      simp [List.lookup_cons, h1, h, ih]

/-- C13: after `processGame` has been applied to every game of a list, in
order and from a fresh accumulator, the entry of `acc.users` for a user
is the number of comments of all the games whose `User` is that user, and the
user is a key of the map exactly when that number is at least one. -/
theorem users_count_comments (arch : Arch) (gs : List Game) (u : String) :
    (accumulate arch gs).users.get u = (commentsBy gs u : ℤ) ∧
    (u ∈ (accumulate arch gs).users.map Prod.fst ↔ 1 ≤ commentsBy gs u) := by
  have h := counts_accumulate arch gs
  refine ⟨counts_get h u, ?_⟩
  rw [mem_keys_iff, h u]
  unfold commentsBy
  split_ifs with h0
  · simp [h0]
  · have : 1 ≤ (gs.flatMap fun g => g.Comments).countP (fun c => c.User == u) :=
      Nat.one_le_iff_ne_zero.2 h0
    simpa using this

/-! ## The two strategies compared -/

theorem likesDescending_total (a b : LikeRow) : likesDescending a b ∨ likesDescending b a := by
  unfold likesDescending MongoNum.le
  rcases lt_trichotomy b.likes.sortKey.1 a.likes.sortKey.1 with h | h | h
  · exact Or.inl (Or.inl h)
  · rcases le_total b.likes.sortKey.2 a.likes.sortKey.2 with h2 | h2
    · exact Or.inl (Or.inr ⟨h, h2⟩)
    · exact Or.inr (Or.inr ⟨h.symm, h2⟩)
  · exact Or.inr (Or.inl h)

theorem likesDescending_trans (a b c : LikeRow) (h1 : likesDescending a b)
    (h2 : likesDescending b c) : likesDescending a c := by
  unfold likesDescending MongoNum.le at *
  rcases h1 with h1 | ⟨e1, v1⟩ <;> rcases h2 with h2 | ⟨e2, v2⟩
  · exact Or.inl (lt_trans h2 h1)
  · exact Or.inl (by omega)
  · exact Or.inl (by omega)
  · exact Or.inr ⟨by omega, le_trans v2 v1⟩

/-- The rows computed by `gameLikePipeline` are among those the store may
deliver. -/
theorem pipelineOutput_gameLikePipeline (srv : Server) (games : List Game) :
    PipelineOutput srv games (gameLikePipeline srv games) := by
  haveI : IsTotal LikeRow likesDescending := ⟨likesDescending_total⟩
  haveI : IsTrans LikeRow likesDescending := ⟨likesDescending_trans⟩
  exact ⟨List.perm_insertionSort _ _, List.sorted_insertionSort _ _⟩

theorem docs_cons (g : Game) (gs : List Game) :
    projectComments (getComments (g :: gs))
      = projectComments (getComments [g]) ++ projectComments (getComments gs) := by
  simp [projectComments, getComments]

theorem docs_title (g : Game) :
    ∀ d ∈ projectComments (getComments [g]), d.title = g.Title := by
  intro d hd
  simp only [projectComments, getComments, List.flatMap_singleton, List.mem_map] at hd
  obtain ⟨x, hx, rfl⟩ := hd
  split_ifs at hx with h
  · simp only [List.mem_singleton] at hx
    rw [hx]
  · simp only [List.mem_map] at hx
    obtain ⟨c, _, rfl⟩ := hx
    rfl

theorem docs_ne_nil (g : Game) : projectComments (getComments [g]) ≠ [] := by
  simp only [projectComments, getComments, List.flatMap_singleton]
  split_ifs with h
  · simp
  · simpa using h

theorem mem_docs_titles (gs : List Game) (t : String) :
    t ∈ (projectComments (getComments gs)).map (fun d => d.title) ↔
      t ∈ gs.map (fun g => g.Title) := by
  induction gs with
  | nil => simp [projectComments, getComments]
  | cons g rest ih =>
    rw [docs_cons, List.map_append, List.mem_append, ih, List.map_cons, List.mem_cons]
    have hg : t ∈ (projectComments (getComments [g])).map (fun d => d.title) ↔ t = g.Title := by
      constructor
      · intro h
        obtain ⟨d, hd, rfl⟩ := List.mem_map.1 h
        exact docs_title g d hd
      · intro h
        obtain ⟨d, rest', hd⟩ := List.exists_cons_of_ne_nil (docs_ne_nil g)
        have hmem : d ∈ projectComments (getComments [g]) := by
          rw [hd]
          exact List.mem_cons_self _ _
        exact List.mem_map.2 ⟨d, hmem, by rw [docs_title g d hmem, h]⟩
    rw [hg]

/-- With distinct titles, the documents grouped under the title of a game are
the documents of that game. -/
theorem filter_docs (gs : List Game) (hnd : (gs.map fun g => g.Title).Nodup) (g : Game)
    (hg : g ∈ gs) :
    (projectComments (getComments gs)).filter (fun d => d.title == g.Title)
      = projectComments (getComments [g]) := by
  induction gs with
  | nil => simp at hg
  | cons x rest ih =>
    rw [List.map_cons, List.nodup_cons] at hnd
    obtain ⟨hx, hrest⟩ := hnd
    rw [docs_cons, List.filter_append]
    by_cases hxt : x.Title = g.Title
    · have hgx : g = x := by
        rcases List.mem_cons.1 hg with h | h
        · exact h
        · exact absurd (hxt ▸ List.mem_map.2 ⟨g, h, rfl⟩) hx
      subst hgx
      have h1 : (projectComments (getComments [g])).filter (fun d => d.title == g.Title)
          = projectComments (getComments [g]) := by
        rw [List.filter_eq_self]
        intro d hd
        simp [docs_title g d hd]
      have h2 : (projectComments (getComments rest)).filter (fun d => d.title == g.Title)
          = [] := by
        rw [List.filter_eq_nil_iff]
        intro d hd hdt
        apply hx
        rw [← mem_docs_titles]
        exact List.mem_map.2 ⟨d, hd, by simpa using hdt⟩
      rw [h1, h2, List.append_nil]
    · have hgr : g ∈ rest := by
        rcases List.mem_cons.1 hg with h | h
        · exact absurd (h ▸ rfl) hxt
        · exact h
      have h1 : (projectComments (getComments [x])).filter (fun d => d.title == g.Title)
          = [] := by
        rw [List.filter_eq_nil_iff]
        intro d hd hdt
        apply hxt
        rw [← docs_title x d hd]
        simpa using hdt
      rw [h1, List.nil_append]
      exact ih hrest hgr

theorem docs_of_commented (g : Game) (h : g.Comments ≠ []) :
    projectComments (getComments [g])
      = g.Comments.map (fun c => { comment := some c, title := g.Title }) := by
  simp [projectComments, getComments, h]

/-- The row of a game that has comments and a 64-bit total: its title, the
quotient of the total by the number of comments, and the total. -/
theorem mem_groupedRows (srv : Server) (gs : List Game)
    (hnd : (gs.map fun g => g.Title).Nodup)
    (hgs : ∀ g ∈ gs, g.Comments ≠ [] ∧ -2 ^ 63 ≤ (g.Comments.map Comment.Like).sum ∧
      (g.Comments.map Comment.Like).sum < 2 ^ 63)
    (r : LikeRow) :
    r ∈ groupedRows srv gs ↔ ∃ g ∈ gs, r =
      { id := g.Title
        avg_likes := Float64.div (Float64.ofInt (g.Comments.map Comment.Like).sum)
          (Float64.ofInt (g.Comments.length : Int))
        likes := .long (g.Comments.map Comment.Like).sum } := by
  have hrow : ∀ g ∈ gs,
      ((projectComments (getComments gs)).filter (fun d => d.title == g.Title)).length
        = g.Comments.length ∧
      srv.sum (((projectComments (getComments gs)).filter
          (fun d => d.title == g.Title)).filterMap fun d => d.comment.map fun c => c.Like)
        = .long (g.Comments.map Comment.Like).sum := by
    intro g hg
    obtain ⟨hne, hlo, hhi⟩ := hgs g hg
    rw [filter_docs gs hnd g hg, docs_of_commented g hne]
    have hl : (g.Comments.map
        (fun c => ({ comment := some c, title := g.Title } : CommentDoc))).filterMap
        (fun d => d.comment.map fun c => c.Like) = g.Comments.map Comment.Like := by
      rw [List.filterMap_map]
      induction g.Comments with
      | nil => rfl
      | cons c cs ih => simp [List.filterMap_cons, ih]
    rw [hl, List.length_map]
    exact ⟨rfl, by simp only [Server.sum, if_pos (And.intro hlo hhi)]⟩
  unfold groupedRows averageProjection groupByTitle
  simp only [List.mem_map, List.mem_dedup]
  constructor
  · rintro ⟨grp, ⟨t, ht, rfl⟩, rfl⟩
    obtain ⟨d, hd, rfl⟩ := ht
    have hmem : d.title ∈ gs.map (fun g => g.Title) := by
      rw [← mem_docs_titles]
      exact List.mem_map.2 ⟨d, hd, rfl⟩
    obtain ⟨g, hg, hgt⟩ := List.mem_map.1 hmem
    refine ⟨g, hg, ?_⟩
    simp only [← hgt]
    rw [(hrow g hg).1, (hrow g hg).2]
    rfl
  · rintro ⟨g, hg, rfl⟩
    have hmem : g.Title ∈ (projectComments (getComments gs)).map (fun d => d.title) := by
      rw [mem_docs_titles]
      exact List.mem_map.2 ⟨g, hg, rfl⟩
    obtain ⟨d, hd, hdt⟩ := List.mem_map.1 hmem
    refine ⟨_, ⟨g.Title, ⟨d, hd, hdt⟩, rfl⟩, ?_⟩
    simp only []
    rw [(hrow g hg).1, (hrow g hg).2]
    rfl

theorem gamesReportLoop_averages (arch : Arch) (first : Bool) (rs : List gameLikeResult) :
    ∀ report : Report,
      (gamesReportLoop arch first report (rs.map Except.ok)).1.AverageLikesPerGame
        = report.AverageLikesPerGame ++ rs.map (fun res =>
            (⟨res.Title, Float64.toInt arch (Float64.ceil res.AvgLikes)⟩ : GameAverageLikes)) := by
  induction rs with
  | nil =>
    intro report
    simp [gamesReportLoop]
  | cons r rest ih =>
    intro report
    simp only [List.map_cons, gamesReportLoop]
    rw [ih]
    cases first <;> simp

theorem decodeRow_long (srv : Server) (r : LikeRow) (n : Int) (h : r.likes = .long n) :
    decodeRow srv r = .ok (rowResult r) := by
  unfold decodeRow rowResult
  rw [h]

theorem processLikes_avg (arch : Arch) (g : Game)
    (hlo : -2 ^ 63 ≤ (g.Comments.map Comment.Like).sum)
    (hhi : (g.Comments.map Comment.Like).sum < 2 ^ 63) :
    (processLikes arch g).1 = Float64.toInt arch (Float64.ceil
      (Float64.div (Float64.ofInt (g.Comments.map Comment.Like).sum)
        (Float64.ofInt (g.Comments.length : Int)))) := by
  unfold processLikes
  simp only
  rw [likeSum_eq_wrap, wrapInt64_of_range hlo hhi]

/-- Where no defect of the code is met the two strategies agree: for a corpus
with pairwise distinct titles in which every game has at least one comment
and a sum of likes within the range of `int`, the report of the accumulator
and the report of the pushdown strategy, whatever sorted order the store
delivers the rows in, hold the same set of title and average-likes pairs; they
have the same `HighestRatedGame` when the corpus is a single game with a
positive total-likes. -/
theorem strategies_agree (arch : Arch) (srv : Server) (gs : List Game)
    (order : List (String × Int)) (mongo : MongoDataSource)
    (hnd : (gs.map fun g => g.Title).Nodup)
    (hgs : ∀ g ∈ gs, g.Comments ≠ [] ∧ -2 ^ 63 ≤ (g.Comments.map Comment.Like).sum ∧
      (g.Comments.map Comment.Like).sum < 2 ^ 63)
    (hserves : Serves srv gs mongo) :
    (∀ e : GameAverageLikes,
      e ∈ ((accumulate arch gs).report order).AverageLikesPerGame ↔
        e ∈ (mongo.Report arch).1.AverageLikesPerGame) ∧
    (∀ g : Game, gs = [g] → 0 < totalLikes g →
      ((accumulate arch gs).report order).HighestRatedGame
        = (mongo.Report arch).1.HighestRatedGame) := by
  obtain ⟨rows, ⟨hperm, _⟩, hcur⟩ := hserves
  have hmem := fun r => (hperm.mem_iff (a := r)).trans (mem_groupedRows srv gs hnd hgs r)
  have hdec : rows.map (decodeRow srv) = (rows.map rowResult).map Except.ok := by
    rw [List.map_map]
    apply List.map_congr_left
    intro r hr
    obtain ⟨g, _, hg⟩ := (hmem r).1 hr
    exact decodeRow_long srv r _ (by rw [hg])
  have hrep : (mongo.Report arch).1
      = (gamesReportLoop arch true ⟨mongo.mostCommentedUser.1, "", []⟩
          ((rows.map rowResult).map Except.ok)).1 := by
    simp only [MongoDataSource.Report, MongoDataSource.gamesReport, hcur, hdec]
  constructor
  · intro e
    rw [hrep, gamesReportLoop_averages, accumulate_averageLikes_report]
    simp only [List.nil_append, List.mem_map]
    constructor
    · rintro ⟨g, hg, rfl⟩
      obtain ⟨_, hlo, hhi⟩ := hgs g hg
      refine ⟨_, ⟨_, (hmem _).2 ⟨g, hg, rfl⟩, rfl⟩, ?_⟩
      rw [processLikes_avg arch g hlo hhi]
      rfl
    · rintro ⟨res, ⟨r, hr, rfl⟩, rfl⟩
      obtain ⟨g, hg, rfl⟩ := (hmem r).1 hr
      obtain ⟨_, hlo, hhi⟩ := hgs g hg
      refine ⟨g, hg, ?_⟩
      rw [processLikes_avg arch g hlo hhi]
      rfl
  · intro g hg hpos
    subst hg
    have hs : ((accumulate arch [g]).report order).HighestRatedGame = g.Title := by
      simp [accumulate, reportAccumulator.report, reportAccumulator.processGame,
        processLikes_total, newReportAcc, hpos]
    have hne : rows ≠ [] := by
      intro h0
      have := (hmem _).2 ⟨g, List.mem_singleton.2 rfl, rfl⟩
      rw [h0] at this
      exact absurd this (List.not_mem_nil _)
    obtain ⟨init, last, hrows⟩ : ∃ init last, rows = init ++ [last] := by
      rcases List.eq_nil_or_concat rows with h | ⟨init, last, h⟩
      · exact absurd h hne
      · exact ⟨init, last, by rw [h, List.concat_eq_append]⟩
    have hlast : last.id = g.Title := by
      have hin : last ∈ rows := by
        rw [hrows]
        simp
      obtain ⟨x, hx, hxe⟩ := (hmem last).1 hin
      rw [List.mem_singleton.1 hx] at hxe
      rw [hxe]
    rw [hs, hrep, hrows, List.map_append, List.map_singleton]
    rw [(gamesReportLoop_last arch (init.map rowResult) (rowResult last) _).1]
    exact hlast.symm

/-- The agreement on the averages, on the corpus made of the mock game Dummy. -/
theorem strategies_agree_witness :
    ([dummyGame].map fun g => g.Title).Nodup ∧
    (∀ g ∈ [dummyGame], g.Comments ≠ [] ∧ -2 ^ 63 ≤ (g.Comments.map Comment.Like).sum ∧
      (g.Comments.map Comment.Like).sum < 2 ^ 63) ∧
    Serves sampleServer [dummyGame] dummyStore ∧
    (∀ e : GameAverageLikes,
      e ∈ ((accumulate amd64 [dummyGame]).report
          [("Courtney Knapp", 1), ("Jacqueline Dodson", 1)]).AverageLikesPerGame ↔
        e ∈ (dummyStore.Report amd64).1.AverageLikesPerGame) ∧
    (∀ g : Game, [dummyGame] = [g] → 0 < totalLikes g →
      ((accumulate amd64 [dummyGame]).report
          [("Courtney Knapp", 1), ("Jacqueline Dodson", 1)]).HighestRatedGame
        = (dummyStore.Report amd64).1.HighestRatedGame) :=
  ⟨by decide, by decide, ⟨_, pipelineOutput_gameLikePipeline _ _, rfl⟩,
    strategies_agree amd64 sampleServer [dummyGame] _ dummyStore (by decide) (by decide)
      ⟨_, pipelineOutput_gameLikePipeline _ _, rfl⟩⟩

/-- A difference that is no defect: on the corpus of one game whose only
comment has no like, the accumulator keeps its zero-valued candidate and
leaves `HighestRatedGame` empty, while the pushdown strategy names the game. -/
theorem strategies_disagree :
    ([unlikedGame].map fun g => g.Title).Nodup ∧
    (∀ g ∈ [unlikedGame], g ≠ unlikedGame → totalLikes g < totalLikes unlikedGame) ∧
    Serves sampleServer [unlikedGame] unlikedStore ∧
    RangeOrder (accumulate amd64 [unlikedGame]).users [("Courtney Knapp", 1)] ∧
    ((accumulate amd64 [unlikedGame]).report [("Courtney Knapp", 1)]).HighestRatedGame = "" ∧
    (unlikedStore.Report amd64).1.HighestRatedGame = "Unliked" := by
  refine ⟨by decide, by decide, ⟨_, pipelineOutput_gameLikePipeline _ _, rfl⟩, by decide,
    by decide, ?_⟩
  decide

/-! ## Properties of the handler -/

/-- C12: for a request that carries the route variable `id`, answered on a
response whose header is not yet written, `getGameEndpoint` sets status 404
exactly when the data source returns an error for that id, the body being
then the JSON document of `Error` with the text of that error; otherwise the
status is 200 and the body is the JSON document of the game returned.  With
the mock data source, ids "1" and "2" give the two mock games and id "3"
gives 404 with "Unable to get game". -/
theorem getGameEndpoint_response (gs : Handler) (vars : List (String × String))
    (id : String) (w : ResponseRecorder) (hid : vars.lookup "id" = some id)
    (hw : w.wroteHeader = false) :
    ((gs.getGameEndpoint vars w).Code = 404 ↔ (gs.ds.Game id).2 ≠ none) ∧
    (∀ msg : String, (gs.ds.Game id).2 = some msg →
      (gs.getGameEndpoint vars w).Body = w.Body ++ [.error ⟨msg⟩]) ∧
    ((gs.ds.Game id).2 = none →
      (gs.getGameEndpoint vars w).Code = 200 ∧
      (gs.getGameEndpoint vars w).Body = w.Body ++ [.game (gs.ds.Game id).1]) ∧
    ((⟨mockGameDataSource⟩ : Handler).getGameEndpoint [("id", "1")] NewRecorder).Code = 200 ∧
    ((⟨mockGameDataSource⟩ : Handler).getGameEndpoint [("id", "1")] NewRecorder).Body
      = [.game dummyGame] ∧
    ((⟨mockGameDataSource⟩ : Handler).getGameEndpoint [("id", "2")] NewRecorder).Code = 200 ∧
    ((⟨mockGameDataSource⟩ : Handler).getGameEndpoint [("id", "2")] NewRecorder).Body
      = [.game solitaryVoyage] ∧
    ((⟨mockGameDataSource⟩ : Handler).getGameEndpoint [("id", "3")] NewRecorder).Code = 404 ∧
    ((⟨mockGameDataSource⟩ : Handler).getGameEndpoint [("id", "3")] NewRecorder).Body
      = [.error ⟨"Unable to get game"⟩] := by
  refine ⟨?_, ?_, ?_, by decide, by decide, by decide, by decide, by decide, by decide⟩
  · unfold Handler.getGameEndpoint
    simp only [hid]
    cases h : (gs.ds.Game id).2 with
    | none =>
      simp [ResponseRecorder.Encode, ResponseRecorder.WriteHeader,
        ResponseRecorder.SetHeader, hw]
    | some e =>
      simp [gameNotFoundError, ResponseRecorder.Encode, ResponseRecorder.WriteHeader,
        ResponseRecorder.SetHeader, hw]
  · intro msg h
    unfold Handler.getGameEndpoint
    simp [hid, h, gameNotFoundError, ResponseRecorder.Encode, ResponseRecorder.WriteHeader,
      ResponseRecorder.SetHeader, hw]
  · intro h
    unfold Handler.getGameEndpoint
    simp [hid, h, ResponseRecorder.Encode, ResponseRecorder.WriteHeader,
      ResponseRecorder.SetHeader, hw]

/-- Witness of C12: the request for id "3" on a fresh recorder, with the mock
data source. -/
theorem getGameEndpoint_response_witness :
    ([("id", "3")] : List (String × String)).lookup "id" = some "3" ∧
    NewRecorder.wroteHeader = false ∧
    (((⟨mockGameDataSource⟩ : Handler).getGameEndpoint [("id", "3")] NewRecorder).Code = 404 ↔
      (mockGameDataSource.Game "3").2 ≠ none) ∧
    (∀ msg : String, (mockGameDataSource.Game "3").2 = some msg →
      ((⟨mockGameDataSource⟩ : Handler).getGameEndpoint [("id", "3")] NewRecorder).Body
        = NewRecorder.Body ++ [.error ⟨msg⟩]) :=
  ⟨by decide, by decide,
    (getGameEndpoint_response ⟨mockGameDataSource⟩ [("id", "3")] "3" NewRecorder
      (by decide) (by decide)).1,
    (getGameEndpoint_response ⟨mockGameDataSource⟩ [("id", "3")] "3" NewRecorder
      (by decide) (by decide)).2.1⟩

theorem docs_likes (g : Game) :
    ((projectComments (getComments [g])).filterMap fun d => d.comment.map fun c => c.Like)
      = g.Comments.map Comment.Like := by
  by_cases h : g.Comments = []
  · simp [projectComments, getComments, h]
  · rw [docs_of_commented g h, List.filterMap_map]
    induction g.Comments with
    | nil => rfl
    | cons c cs ih => simp [List.filterMap_cons, ih]

/-- With distinct titles and sums of likes within the range of `int`, the
rows of the pipeline are the games: each row carries the title of a game and
the exact sum of its likes, and each game has such a row. -/
theorem groupedRows_likes (srv : Server) (gs : List Game)
    (hnd : (gs.map fun g => g.Title).Nodup)
    (hgs : ∀ g ∈ gs, -2 ^ 63 ≤ (g.Comments.map Comment.Like).sum ∧
      (g.Comments.map Comment.Like).sum < 2 ^ 63) :
    (∀ r ∈ groupedRows srv gs, ∃ g ∈ gs, r.id = g.Title ∧
      r.likes = .long (g.Comments.map Comment.Like).sum) ∧
    (∀ g ∈ gs, ∃ r ∈ groupedRows srv gs, r.id = g.Title ∧
      r.likes = .long (g.Comments.map Comment.Like).sum) := by
  have hsum : ∀ g ∈ gs,
      srv.sum (((projectComments (getComments gs)).filter
          (fun d => d.title == g.Title)).filterMap fun d => d.comment.map fun c => c.Like)
        = .long (g.Comments.map Comment.Like).sum := by
    intro g hg
    obtain ⟨hlo, hhi⟩ := hgs g hg
    rw [filter_docs gs hnd g hg, docs_likes]
    simp only [Server.sum, if_pos (And.intro hlo hhi)]
  unfold groupedRows averageProjection groupByTitle
  simp only [List.mem_map, List.mem_dedup]
  constructor
  · rintro r ⟨grp, ⟨t, ht, rfl⟩, rfl⟩
    obtain ⟨d, hd, rfl⟩ := ht
    have hmem : d.title ∈ gs.map (fun g => g.Title) := by
      rw [← mem_docs_titles]
      exact List.mem_map.2 ⟨d, hd, rfl⟩
    obtain ⟨g, hg, hgt⟩ := List.mem_map.1 hmem
    refine ⟨g, hg, hgt.symm, ?_⟩
    simp only [← hgt]
    exact hsum g hg
  · intro g hg
    have hmem : g.Title ∈ (projectComments (getComments gs)).map (fun d => d.title) := by
      rw [mem_docs_titles]
      exact List.mem_map.2 ⟨g, hg, rfl⟩
    obtain ⟨d, hd, hdt⟩ := List.mem_map.1 hmem
    exact ⟨_, ⟨_, ⟨g.Title, ⟨d, hd, hdt⟩, rfl⟩, rfl⟩, rfl, hsum g hg⟩

/-- The two strategies select the same game: for a corpus with pairwise
distinct titles and sums of likes within the range of `int`, in which a
single game has the greatest total-likes and that total is positive, the
first row that the pipeline delivers, in whatever admitted order, carries the
title that the accumulator reports as `HighestRatedGame`. -/
theorem top_row_is_highestRated (arch : Arch) (srv : Server) (gs : List Game)
    (order : List (String × Int)) (rows : List LikeRow) (m : Game)
    (hnd : (gs.map fun g => g.Title).Nodup)
    (hgs : ∀ g ∈ gs, -2 ^ 63 ≤ (g.Comments.map Comment.Like).sum ∧
      (g.Comments.map Comment.Like).sum < 2 ^ 63)
    (hm : m ∈ gs) (hpos : 0 < totalLikes m)
    (huniq : ∀ g ∈ gs, g ≠ m → totalLikes g < totalLikes m)
    (hout : PipelineOutput srv gs rows) :
    rows.head?.map (fun r => r.id)
      = some ((accumulate arch gs).report order).HighestRatedGame := by
  have htot : ∀ g ∈ gs, totalLikes g = (g.Comments.map Comment.Like).sum :=
    fun g hg => totalLikes_eq_sum g (hgs g hg).1 (hgs g hg).2
  -- the accumulator selects `m`
  have hs : ((accumulate arch gs).report order).HighestRatedGame = m.Title := by
    rcases selected_accumulate arch gs with ⟨_, hle⟩ | ⟨pre, c, post, hgseq, hsel, _, hpre, hpost⟩
    · exact absurd hpos (not_lt.2 (hle m hm))
    · have hc : c ∈ gs := by simp [hgseq]
      have hmc : totalLikes m ≤ totalLikes c := by
        rw [hgseq] at hm
        rcases List.mem_append.1 hm with h1 | h1
        · exact le_of_lt (hpre m h1)
        · rcases List.mem_cons.1 h1 with h2 | h2
          · rw [h2]
          · exact hpost m h2
      have hcm : c = m := by
        by_contra hne
        exact absurd (huniq c hc hne) (not_lt.2 hmc)
      simp [reportAccumulator.report, hsel, hcm]
  obtain ⟨hperm, hsorted⟩ := hout
  obtain ⟨hrows, hgames⟩ := groupedRows_likes srv gs hnd hgs
  obtain ⟨rm, hrm, hrmid, hrmlikes⟩ := hgames m hm
  have hrm' : rm ∈ rows := hperm.mem_iff.2 hrm
  cases rows with
  | nil => exact absurd hrm' (List.not_mem_nil _)
  | cons r0 tail =>
    rw [hs]
    simp only [List.head?_cons, Option.map_some']
    congr 1
    rcases List.mem_cons.1 hrm' with h0 | htail
    · rw [← h0, hrmid]
    · obtain ⟨g0, hg0, hid0, hlikes0⟩ := hrows r0 (hperm.mem_iff.1 (List.mem_cons_self _ _))
      have hdesc : likesDescending r0 rm := (List.pairwise_cons.1 hsorted).1 rm htail
      have hle : totalLikes m ≤ totalLikes g0 := by
        unfold likesDescending MongoNum.le at hdesc
        rw [hrmlikes, hlikes0] at hdesc
        simp only [MongoNum.sortKey, lt_self_iff_false, true_and, false_or] at hdesc
        rw [htot m hm, htot g0 hg0]
        exact_mod_cast hdesc
      have hg0m : g0 = m := by
        by_contra hne
        exact absurd (huniq g0 hg0 hne) (not_lt.2 hle)
      rw [hid0, hg0m]

/-- C11, the code at a failing input: the two mock games have distinct
titles, and Solitary Voyage, with a total of 9 against 6, is the single game
of greatest total.  The pipeline delivers the row of Solitary Voyage first;
the accumulator reports "Solitary Voyage", `gamesReport` reports "Dummy", the
title of the last row. -/
theorem strategies_on_mockGames (arch : Arch) (srv : Server) (order : List (String × Int)) :
    (mockGames.map fun g => g.Title).Nodup ∧
    solitaryVoyage ∈ mockGames ∧ 0 < totalLikes solitaryVoyage ∧
    (∀ g ∈ mockGames, g ≠ solitaryVoyage → totalLikes g < totalLikes solitaryVoyage) ∧
    Serves srv mockGames (mockStore srv) ∧
    ((gameLikePipeline srv mockGames).map fun r => r.id) = ["Solitary Voyage", "Dummy"] ∧
    ((accumulate arch mockGames).report order).HighestRatedGame = "Solitary Voyage" ∧
    ((mockStore srv).Report arch).1.HighestRatedGame = "Dummy" := by
  have h : gameLikePipeline srv mockGames =
      [ { id := "Solitary Voyage"
          avg_likes := Float64.div (Float64.ofInt 9) (Float64.ofInt 1)
          likes := .long 9 },
        { id := "Dummy"
          avg_likes := Float64.div (Float64.ofInt 6) (Float64.ofInt 2)
          likes := .long 6 } ] := by
    rfl
  refine ⟨by decide, by decide, by decide, by decide,
    ⟨_, pipelineOutput_gameLikePipeline _ _, rfl⟩, by rw [h]; rfl, rfl, ?_⟩
  simp [MongoDataSource.Report, MongoDataSource.gamesReport, mockStore, h, decodeRow,
    gamesReportLoop]

end Backend
